import Mathlib

/-!
A verification development for the APApp report pipeline
(`src/report.py`, `src/app.py`).

The Python code is shallowly embedded: strings are `String` (operated on
through their `List Char` data), quantities are `ℚ` (Python floats are only
ever produced here from decimal literals, which we model exactly as
rationals), dates are an abstract `(year, month, day)` triple, and pandas
data frames are `List Row`.  Pure cell-level helpers (`to_float`,
`_format_qty_pl`, `_format_date_pl`, `_normalize_uom`), the lookup builder
`load_uom_lookup`, the overlay `apply_uom_lookup`, the load-time filters of
`load_csv` and the aggregation `build_rows_for_document` are translated
function by function.  Pandas plumbing and PDF layout are outside
the model; where a function mixes I/O with logic (e.g. `load_uom_lookup`)
only its record-processing core is embedded, taking the already-read rows
as input.  File I/O, web routing and font handling are thin glue and are
not modelled.
-/

namespace APApp

/-! ### Characters and strings -/

/-- Characters Python's `str.strip` removes (the whitespace characters that
occur in this pipeline's data: ASCII whitespace, NBSP, narrow NBSP and the
common Unicode spaces). -/
def pyIsSpace (c : Char) : Bool :=
  c == ' ' || c == '\t' || c == '\n' || c == '\r' || c == '\x0b' || c == '\x0c' ||
  c == '\u0085' || c == ' ' || c == ' ' || c == '\u202F' || c == '　'

/-- Strip leading and trailing characters satisfying `p` (Python `str.strip`). -/
def stripWith (p : Char → Bool) (l : List Char) : List Char :=
  ((l.dropWhile p).reverse.dropWhile p).reverse

/-- Python `str.strip()` on the character list of a string. -/
def stripWSL (l : List Char) : List Char := stripWith pyIsSpace l

/-- Python `s.strip()` returning a string. -/
def stripStr (s : String) : String := ⟨stripWSL s.data⟩

/-- Remove every occurrence of character `c` (Python `s.replace(c, "")`). -/
def removeCh (c : Char) (l : List Char) : List Char := l.filter (fun a => a != c)

/-- Replace every occurrence of `a` by `b` (Python `s.replace(a, b)` for
one-character patterns). -/
def replaceCh (a b : Char) (l : List Char) : List Char :=
  l.map (fun c => if c == a then b else c)

/-- Python `pat.isPrefixOf s`-style check used to model `str.startswith`. -/
def leadsWith : List Char → List Char → Bool
  | [], _ => true
  | _ :: _, [] => false
  | a :: as, b :: bs => a == b && leadsWith as bs

/-- Python substring test `pat in s` on character lists. -/
def hasSub (pat : List Char) : List Char → Bool
  | [] => leadsWith pat []
  | b :: t => leadsWith pat (b :: t) || hasSub pat t

/-- `pat in s` for strings (models `str.contains(..., regex=False)` /
the Python `in` operator). -/
def strContains (s pat : String) : Bool := hasSub pat.data s.data

/-- `s.startswith(pat)` for strings. -/
def strStarts (s pat : String) : Bool := leadsWith pat.data s.data

/-- Python `str.upper()` (ASCII letters; the codes and unit names this
pipeline uppercases are ASCII). -/
def upperStr (s : String) : String := ⟨s.data.map Char.toUpper⟩

/-- Python `str.lower()` (ASCII letters, as above). -/
def lowerStr (s : String) : String := ⟨s.data.map Char.toLower⟩

/-! ### Decimal digits -/

/-- Is `c` an ASCII digit. -/
def isDigitB (c : Char) : Bool := 48 ≤ c.toNat && c.toNat ≤ 57

/-- The digit character for `d < 10`. -/
def digChar (d : ℕ) : Char := Char.ofNat (48 + d)

/-- Numeric value of a digit character. -/
def charVal (c : Char) : ℕ := c.toNat - 48

/-- Little-endian decimal digit characters of `n`, with explicit fuel so the
definition is structural (and hence kernel-reducible). -/
def digsCore : ℕ → ℕ → List Char
  | 0, _ => []
  | fuel + 1, n => if n = 0 then [] else digChar (n % 10) :: digsCore fuel (n / 10)

/-- Little-endian decimal digit characters of `n` (`[]` for `0`). -/
def natDigsLE (n : ℕ) : List Char := digsCore n n

/-- Decimal digit characters of `n`, most significant first, as Python's
`str(n)` renders it. -/
def natDigs (n : ℕ) : List Char := if n = 0 then ['0'] else (natDigsLE n).reverse

/-- `str(n)` for a natural number. -/
def natToStr (n : ℕ) : String := ⟨natDigs n⟩

/-- Value of a big-endian digit-character list (the accumulator fold a
hand-written parser performs). -/
def digsVal (l : List Char) : ℕ := l.foldl (fun a c => 10 * a + charVal c) 0

/-- Little-endian value of a digit-character list. -/
def valLE : List Char → ℕ
  | [] => 0
  | c :: t => charVal c + 10 * valLE t

/-! ### A model of Python's `float()` on strings

`float(s)` accepts an optionally signed decimal literal with optional
fractional part and optional exponent, surrounded by optional whitespace.
(`inf`/`nan` spellings and digit-group underscores, which never occur in
this pipeline's data, are not modelled: on them the model returns `none`.)
The parser first produces an exact symbolic representation `FloatRep` over
`ℕ`/`ℤ`; `repVal` turns it into the exact rational value.  Python's binary
floating point rounding is not modelled: every numeric string appearing in
the claims denotes a dyadic-or-small decimal that `float` represents in a
way that is exact for the comparisons at stake. -/

structure FloatRep where
  neg : Bool
  ip : ℕ
  fp : ℕ
  fpLen : ℕ
  ex : ℤ
  deriving DecidableEq

/-- The rational value of a parsed float literal. -/
def repVal (r : FloatRep) : ℚ :=
  (if r.neg then (-1 : ℚ) else 1) * ((r.ip + (r.fp : ℚ) / 10 ^ r.fpLen) * (10 : ℚ) ^ r.ex)

/-- Longest digit run at the front. -/
def takeDigs (l : List Char) : List Char := l.takeWhile isDigitB

/-- Rest after the longest front digit run. -/
def dropDigs (l : List Char) : List Char := l.dropWhile isDigitB

/-- Exponent digits (after an optional sign): all characters must be digits
and at least one digit must be present. -/
def parseExpDigs (neg : Bool) (l : List Char) : Option ℤ :=
  if l.isEmpty then none
  else if (dropDigs l).isEmpty then
    some ((if neg then -1 else 1) * (digsVal l : ℤ))
  else none

/-- Exponent part after `e`/`E`: optional sign, then digits. -/
def parseExpTail (l : List Char) : Option ℤ :=
  match l with
  | [] => none
  | c :: t =>
    if c == '+' then parseExpDigs false t
    else if c == '-' then parseExpDigs true t
    else parseExpDigs false (c :: t)

/-- After the mantissa: either the end of the string or an exponent. -/
def withExp (neg : Bool) (ip fp fpLen : ℕ) (l : List Char) : Option FloatRep :=
  match l with
  | [] => some ⟨neg, ip, fp, fpLen, 0⟩
  | c :: t =>
    if c == 'e' || c == 'E' then
      (parseExpTail t).map (fun e => ⟨neg, ip, fp, fpLen, e⟩)
    else none

/-- What follows the integer-digit run `ip`: nothing, a fractional part,
or directly an exponent; at least one mantissa digit required. -/
def parseBodyRest (neg : Bool) (ip : List Char) : List Char → Option FloatRep
  | [] => if ip.isEmpty then none else some ⟨neg, digsVal ip, 0, 0, 0⟩
  | c :: r2 =>
    if c == '.' then
      if ip.isEmpty && (takeDigs r2).isEmpty then none
      else withExp neg (digsVal ip) (digsVal (takeDigs r2)) (takeDigs r2).length (dropDigs r2)
    else if ip.isEmpty then none
    else withExp neg (digsVal ip) 0 0 (c :: r2)

/-- The unsigned body: `digits [. digits] [exp]` or `. digits [exp]`, at
least one mantissa digit required. -/
def parseBody (neg : Bool) (l : List Char) : Option FloatRep :=
  parseBodyRest neg (takeDigs l) (dropDigs l)

/-- Sign, then body. -/
def parseRep (l : List Char) : Option FloatRep :=
  match l with
  | [] => parseBody false []
  | c :: t =>
    if c == '+' then parseBody false t
    else if c == '-' then parseBody true t
    else parseBody false (c :: t)

/-- Python `float(s)` on a character list: strip whitespace, parse, value;
`none` models the `ValueError` branch. -/
def parseFloatL (l : List Char) : Option ℚ := (parseRep (stripWSL l)).map repVal

/-! ### `load_csv.to_float`  (src/report.py lines 124-152) -/

/-- Python `s.strip('"')`. -/
def stripQuotesL (l : List Char) : List Char := stripWith (fun c => c == '"') l

/-- The normalisation `to_float` applies before its first `float()` attempt:
`str(v).strip()`, remove every space, remove every no-break space, strip
surrounding double quotes. -/
def cleanQty (v : String) : List Char :=
  stripQuotesL (removeCh '\u00A0' (removeCh ' ' (stripWSL v.data)))

/-- Python `s.split(',')` on character lists. -/
def splitComma : List Char → List (List Char)
  | [] => [[]]
  | c :: t =>
    if c == ',' then [] :: splitComma t
    else
      match splitComma t with
      | [] => [[c]]
      | h :: r => (c :: h) :: r

/-- The `to_float` heuristic: after removing `-`, splitting on `,` yields
exactly two parts and the part after the comma has exactly three
characters (the code checks `len(parts[1]) == 3`). -/
def commaThousandsB (l : List Char) : Bool :=
  let parts := splitComma (removeCh '-' l)
  parts.length == 2 && (parts.getD 1 []).length == 3

/-- The retry branch of `to_float` after the first `float()` failed: if a
comma is present, remove it (thousands) or turn it into a point (decimal)
according to the heuristic and retry; the final fallback is `0.0`. -/
def to_float_retry (s : List Char) : ℚ :=
  if s.contains ',' then
    (parseFloatL (if commaThousandsB s then removeCh ',' s else replaceCh ',' '.' s)).getD 0
  else (parseFloatL s).getD 0

/-- `load_csv.to_float` from src/report.py: clean the cell, try `float`;
on failure, if a comma is present decide between thousands-separator
removal and decimal-comma replacement, retry, and fall back to `0.0`. -/
def to_float (v : String) : ℚ :=
  match parseFloatL (cleanQty v) with
  | some x => x
  | none => to_float_retry (cleanQty v)

/-- Characters that may occur in a string accepted by `float()`. -/
def goodChar (c : Char) : Bool :=
  isDigitB c || c == '.' || c == '+' || c == '-' || c == 'e' || c == 'E'

/-! ### Data model

A `Row` is one line of the loaded input table (`load_csv` output): the
fixed Polish-named columns, with quantity already coerced by `to_float`,
the two date columns parsed to an optional calendar date, and the derived
`__UOM__` column. -/

structure PDate where
  y : ℕ
  m : ℕ
  d : ℕ
  deriving DecidableEq

structure Row where
  datePosted : Option PDate
  docType : String
  docNo : String
  itemNo : String
  sourceNo : String
  name : String
  lotNo : String
  expiry : Option PDate
  qty : ℚ
  uom : String
  deriving DecidableEq

/-- The grouping key of `build_rows_for_document`:
`group_cols = [Nazwa, Nr partii, Data ważności, Nr zapasu, __UOM__]`. -/
structure RKey where
  name : String
  lotNo : String
  expiry : Option PDate
  itemNo : String
  uom : String
  deriving DecidableEq

/-- The `ReportRow` dataclass of src/report.py. -/
structure ReportRow where
  lp : ℕ
  name : String
  qty : ℚ
  uom : String
  lot_no : String
  expiry : Option PDate
  item_no : String
  deriving DecidableEq

def rowKey (r : Row) : RKey := ⟨r.name, r.lotNo, r.expiry, r.itemNo, r.uom⟩

/-! ### Key comparison (the sort order pandas uses on the grouping keys:
strings by code point, dates chronologically, missing dates last) -/

def cmpCh (a b : Char) : Ordering :=
  if a.toNat < b.toNat then .lt else if b.toNat < a.toNat then .gt else .eq

def cmpCharList : List Char → List Char → Ordering
  | [], [] => .eq
  | [], _ :: _ => .lt
  | _ :: _, [] => .gt
  | a :: as, b :: bs => (cmpCh a b).then (cmpCharList as bs)

def cmpStr (a b : String) : Ordering := cmpCharList a.data b.data

def cmpN (a b : ℕ) : Ordering := if a < b then .lt else if b < a then .gt else .eq

def cmpDate (a b : PDate) : Ordering := ((cmpN a.y b.y).then (cmpN a.m b.m)).then (cmpN a.d b.d)

/-- `NaT` (a missing expiry) sorts after every real date, as pandas places
missing values last. -/
def cmpOD : Option PDate → Option PDate → Ordering
  | none, none => .eq
  | none, some _ => .gt
  | some _, none => .lt
  | some a, some b => cmpDate a b

/-- Lexicographic comparison on the three `sort_values` columns
(name, lot, expiry). -/
def cmpKey3 (a b : RKey) : Ordering :=
  ((cmpStr a.name b.name).then (cmpStr a.lotNo b.lotNo)).then (cmpOD a.expiry b.expiry)

/-- Lexicographic comparison on all five grouping columns, the order in
which pandas `groupby(sort=True)` emits the groups. -/
def cmpKey5 (a b : RKey) : Ordering :=
  ((cmpKey3 a b).then (cmpStr a.itemNo b.itemNo)).then (cmpStr a.uom b.uom)

/-! ### `ReportBuilder.build_rows_for_document`  (src/report.py lines 448-486) -/

def outboundMarker : String := "Wydanie sprzedaży"

/-- The movement filter mask: document type contains the outbound marker,
or the quantity is negative. -/
def outboundKeep (r : Row) : Bool := strContains r.docType outboundMarker || decide (r.qty < 0)

/-- The rows the aggregation works on: the mask is applied only when the
document-type column is present in the frame. -/
def keptRows (hasDocType : Bool) (rs : List Row) : List Row :=
  if hasDocType then rs.filter outboundKeep else rs

/-- The distinct grouping keys in the order `groupby(sort=True)` emits
them: sorted by the full five-column key. -/
def groupKeys (rs : List Row) : List RKey :=
  List.insertionSort (fun a b => cmpKey5 a b ≠ .gt) (rs.map rowKey).dedup

/-- Sum of the (signed) quantities of the rows sharing key `k`. -/
def sumQtyOver (rs : List Row) (k : RKey) : ℚ :=
  ((rs.filter fun r => decide (rowKey r = k)).map Row.qty).sum

/-- The grouped table after `sort_values(by=[name, lot, expiry],
kind="stable")`: one `(key, summed quantity)` pair per distinct key. -/
def groupedPairs (hasDocType : Bool) (rs : List Row) : List (RKey × ℚ) :=
  List.insertionSort (fun p q => cmpKey3 p.1 q.1 ≠ .gt)
    ((groupKeys (keptRows hasDocType rs)).map
      fun k => (k, sumQtyOver (keptRows hasDocType rs) k))

/-- One output row from one grouped pair: 1-based dense sequence number,
stripped text fields, absolute quantity. -/
def renderPair (ip : ℕ × (RKey × ℚ)) : ReportRow :=
  ⟨ip.1 + 1, stripStr ip.2.1.name, |ip.2.2|, stripStr ip.2.1.uom, stripStr ip.2.1.lotNo,
    ip.2.1.expiry, stripStr ip.2.1.itemNo⟩

/-- `build_rows_for_document`: filter to outbound movements, group by the
five-column key summing quantities, stable-sort by (name, lot, expiry),
emit rows numbered from 1. -/
def build_rows_for_document (hasDocType : Bool) (rs : List Row) : List ReportRow :=
  ((groupedPairs hasDocType rs).enum).map renderPair

/-! ### `load_csv` row filters  (src/report.py lines 163-176) -/

/-- Keep rows whose document number does not contain `/KG/`
(case-sensitive, `regex=False`). -/
def docNoKeep (r : Row) : Bool := !(strContains r.docNo "/KG/")

/-- Keep rows whose product name does not start with `OP-`. -/
def nameKeep (r : Row) : Bool := !(strStarts r.name "OP-")

/-- The two row filters `load_csv` applies after cell parsing, in source
order: the `/KG/` document-number filter, then the `OP-` name filter. -/
def load_csv_filter (rs : List Row) : List Row := (rs.filter docNoKeep).filter nameKeep

/-! ### `load_uom_lookup` and `apply_uom_lookup`  (src/report.py 274-322) -/

/-- A Python dict as an ordered association list. -/
abbrev SMap : Type := List (String × String)

def dGet (m : SMap) (k : String) : Option String :=
  ((m : List (String × String)).find? fun p => p.1 == k).map Prod.snd

/-- `d[k] = v`: overwrite in place, or append a new entry. -/
def dInsert (m : SMap) (k v : String) : SMap :=
  if ((m : List (String × String)).find? fun p => p.1 == k).isSome then
    (m : List (String × String)).map fun p => if p.1 == k then (k, v) else p
  else (m : List (String × String)) ++ [(k, v)]

/-- `d.setdefault(k, v)`: insert only when the key is absent. -/
def dSetdefault (m : SMap) (k v : String) : SMap :=
  if ((m : List (String × String)).find? fun p => p.1 == k).isSome then m
  else (m : List (String × String)) ++ [(k, v)]

/-- The fixed synonym table of `_normalize_uom`. -/
def uomSynonyms : List (String × String) :=
  [("KG", "KG"), ("KILOGRAM", "KG"), ("KILOGRAMY", "KG"),
   ("SZT", "SZT"), ("SZTUKA", "SZT"), ("SZTUKI", "SZT"),
   ("L", "L"), ("LITR", "L"), ("LITRY", "L"),
   ("G", "G"), ("GRAM", "G"), ("GRAMY", "G"),
   ("ML", "ML"), ("MILILITR", "ML"), ("MILILITRY", "ML")]

/-- `_normalize_uom` (src/report.py lines 51-75) on a string cell: trim,
uppercase, map through the synonym table, else pass through. -/
def normalize_uom (s : String) : String :=
  match (uomSynonyms.find? fun p => p.1 == upperStr (stripStr s)).map Prod.snd with
  | some u => u
  | none => upperStr (stripStr s)

/-- The code normalisation applied to the `Nr` column and to item numbers:
`str.strip().str.upper()`. -/
def normCode (s : String) : String := upperStr (stripStr s)

/-- `re.fullmatch(r"Z\d{5}", code)`. -/
def matchesZ5 (s : String) : Bool :=
  match s.data with
  | [] => false
  | c :: t => c == 'Z' && (t.all isDigitB && t.length == 5)

/-- One iteration of the `load_uom_lookup` row loop (src/report.py lines
276-303): register the explicit entry (overwriting), then the derived
padded variants with `setdefault`.  The two numeric branches spell out
`re.fullmatch(r"\d{4,5}", code)` split by length. -/
def uomStep (m : SMap) (row : String × String) : SMap :=
  let code := normCode row.1
  let uom := normalize_uom row.2
  if code = "" then m
  else
    let m1 := dInsert m code uom
    let m2 := if code.data.all isDigitB && code.data.length == 4 then
        dSetdefault m1 ("Z0" ++ code) uom else m1
    let m3 := if code.data.all isDigitB && code.data.length == 5 then
        dSetdefault m2 ("Z" ++ code) uom else m2
    if matchesZ5 code then
      let raw : String := ⟨code.data.drop 1⟩
      let m4 := if strStarts raw "0" && raw.data.length == 5 then dSetdefault m3 raw uom else m3
      if strStarts raw "0" then
        if (raw.data.drop 1).length == 4 then dSetdefault m4 ⟨raw.data.drop 1⟩ uom else m4
      else m4
    else m3

/-- The record-processing core of `load_uom_lookup`: fold the (code, unit)
rows of the reference file into a dict.  File discovery, reading and
column identification happen before this point in the source and are not
modelled. -/
def load_uom_lookup (rows : List (String × String)) : SMap := rows.foldl uomStep []

/-- `apply_uom_lookup` (src/report.py lines 309-322): overwrite `__UOM__`
with the mapped value when the trimmed uppercased item number maps to a
non-empty unit; otherwise keep the existing value.  No other column is
touched.  An empty lookup leaves the frame unchanged. -/
def apply_uom_lookup (lookup : SMap) (rs : List Row) : List Row :=
  if (lookup : List (String × String)).isEmpty then rs
  else rs.map fun r =>
    match dGet lookup (normCode r.itemNo) with
    | some u => if u ≠ "" then { r with uom := u } else r
    | none => r

/-! ### Presentation formatting  (src/report.py 427-446, 574-579; src/app.py 220-234) -/

def pad2 (n : ℕ) : String := if n < 10 then ⟨'0' :: natDigs n⟩ else natToStr n

def pad4 (n : ℕ) : String := ⟨List.replicate (4 - (natDigs n).length) '0' ++ natDigs n⟩

/-- `_format_date_pl`: `strftime("%d.%m.%Y")` for a real date, `""` when
the value is missing. -/
def format_date_pl : Option PDate → String
  | none => ""
  | some d => pad2 d.d ++ "." ++ pad2 d.m ++ "." ++ pad4 d.y

def sentinelCode : String := "z00155"

/-- The expiry cell `generate_pdf` renders for a row (src/report.py lines
574-579). -/
def pdf_expiry_cell (r : ReportRow) : String :=
  if lowerStr r.item_no = sentinelCode then "<i>nie dotyczy</i>" else format_date_pl r.expiry

/-- The expiry string the `/preview` route sends for a row (src/app.py
lines 220-234). -/
def preview_expiry_cell (r : ReportRow) : String :=
  if lowerStr r.item_no = sentinelCode then "nie dotyczy"
  else
    match r.expiry with
    | some d => format_date_pl (some d)
    | none => ""

/-- Python `round()`: round half to even. -/
def pyRound (q : ℚ) : ℤ :=
  if q - ⌊q⌋ < 1 / 2 then ⌊q⌋
  else if 1 / 2 < q - ⌊q⌋ then ⌊q⌋ + 1
  else if 2 ∣ ⌊q⌋ then ⌊q⌋ else ⌊q⌋ + 1

/-- Insert `,` after every three digits of a little-endian digit list
(the grouping of Python's `f"{n:,}"`). -/
def group3LE : List Char → List Char
  | a :: b :: c :: d :: t => a :: b :: c :: ',' :: group3LE (d :: t)
  | l => l

/-- `f"{n:,}"` for a natural number. -/
def groupDigits (n : ℕ) : List Char := (group3LE (natDigs n).reverse).reverse

/-- `f"{i:,}"` for an integer. -/
def intGroup (i : ℤ) : List Char := (if i < 0 then ['-'] else []) ++ groupDigits i.natAbs

/-- Three zero-padded digits (the fractional part of `f"{n:,.3f}"`). -/
def pad3 (f : ℕ) : List Char := [digChar (f / 100 % 10), digChar (f / 10 % 10), digChar (f % 10)]

/-- `f"{q:,.3f}"`: the value rounded to three decimals (half to even),
rendered with a grouped integer part and exactly three fractional
digits. -/
def formatFixed3 (q : ℚ) : List Char :=
  (if q < 0 then ['-'] else []) ++
    groupDigits ((pyRound (1000 * q)).natAbs / 1000) ++ '.' :: pad3 ((pyRound (1000 * q)).natAbs % 1000)

/-- Python `s.rstrip('0')`. -/
def rstrip0 (l : List Char) : List Char := (l.reverse.dropWhile fun c => c == '0').reverse

/-- Python `s.rstrip('.')`. -/
def rstripDot (l : List Char) : List Char := (l.reverse.dropWhile fun c => c == '.').reverse

/-- The locale-symbol swap of `_format_qty_pl`:
`s.replace(",", "_").replace(".", ",").replace("_", " ")`. -/
def polishSubst (l : List Char) : List Char :=
  replaceCh '_' '\u202F' (replaceCh '.' ',' (replaceCh ',' '_' l))

/-- `ReportBuilder._format_qty_pl` (src/report.py lines 433-446): integers
(within `1e-9`, after `round()`) are grouped; otherwise fixed three
decimals with trailing zeros and a trailing point stripped; then locale
symbols are swapped (`,`→narrow no-break space, `.`→`,`). -/
def format_qty_pl (q : ℚ) : String :=
  ⟨polishSubst (if |q - (pyRound q : ℚ)| < 1 / 1000000000 then intGroup (pyRound q)
    else rstripDot (rstrip0 (formatFixed3 q)))⟩

/-- The quantity reparse of `generate_final` (src/app.py lines 263-271):
`str(qty).replace(" ", "").replace(",", ".").strip()`, then `float`,
falling back to `0.0` on an empty cell or a parse error. -/
def gf_parse_qty (s : String) : ℚ :=
  let t := stripWSL (replaceCh ',' '.' (removeCh '\u202F' s.data))
  if t.isEmpty then 0
  else
    match parseFloatL t with
    | some v => v
    | none => 0

/-! ### Comparator theory -/

/-- A well-behaved comparator: antisymmetric under `swap`, transitive on
`.lt`, and `.eq` results are congruences. -/
def CmpOK {α : Type} (c : α → α → Ordering) : Prop :=
  (∀ a b, c a b = (c b a).swap) ∧
  (∀ a b d, c a b = .lt → c b d = .lt → c a d = .lt) ∧
  (∀ a b, c a b = .eq → ∀ d, c a d = c b d)

def wRow1 : Row :=
  ⟨none, "Wydanie sprzedaży", "WZ/2026/1", "Z03773", "K001", "Jabłko prażone", "L1",
    some ⟨2026, 1, 1⟩, -5, "KG"⟩

def wRow2 : Row :=
  ⟨none, "Wydanie sprzedaży", "WZ/2026/1", "Z03773", "K001", "Jabłko prażone", "L1",
    some ⟨2026, 1, 1⟩, -3, "KG"⟩

def wRowKG : Row :=
  ⟨none, "Wydanie sprzedaży", "WZ/KG/7", "Z03773", "K001", "Groszek", "L2",
    none, -2, "KG"⟩

def wRowOP : Row :=
  ⟨none, "Wydanie sprzedaży", "WZ/2026/2", "Z03774", "K001", "OP-Karton", "L3",
    none, -1, "SZT"⟩

def wRowkg : Row :=
  ⟨none, "Wydanie sprzedaży", "WZ/kg/9", "Z03773", "K001", "Sok", "L4",
    none, -2, "L"⟩

def wLookup : SMap := [("Z03773", "KG"), ("Z09999", "")]

def wRep : ReportRow := ⟨1, "Mieszanka", 5, "KG", "L1", some ⟨2026, 1, 1⟩, "Z00155"⟩

/-- The comma test as the specification words it: a single comma followed
by exactly three digits.  (The code instead tests for three characters of
any kind after the comma.) -/
def commaThreeDigitsSpec (l : List Char) : Bool :=
  let parts := splitComma (removeCh '-' l)
  parts.length == 2 && ((parts.getD 1 []).length == 3 && (parts.getD 1 []).all isDigitB)

/-- `to_float` as the specification describes it, differing from the code
only in using `commaThreeDigitsSpec` for the thousands-separator test. -/
def to_float_claimed_retry (s : List Char) : ℚ :=
  if s.contains ',' then
    (parseFloatL (if commaThreeDigitsSpec s then removeCh ',' s else replaceCh ',' '.' s)).getD 0
  else (parseFloatL s).getD 0

def to_float_claimed (v : String) : ℚ :=
  match parseFloatL (cleanQty v) with
  | some x => x
  | none => to_float_claimed_retry (cleanQty v)

theorem digsCore_congr : ∀ f₁ f₂ n, n ≤ f₁ → n ≤ f₂ → digsCore f₁ n = digsCore f₂ n := by
  intro f₁
  induction f₁ using Nat.strong_induction_on with
  | _ f₁ ih =>
    intro f₂ n h1 h2
    match f₁, f₂ with
    | 0, f₂ =>
      interval_cases n
      cases f₂ <;> simp [digsCore]
    | f₁ + 1, 0 =>
      interval_cases n
      simp [digsCore]
    | f₁ + 1, f₂ + 1 =>
      simp only [digsCore]
      rcases Nat.eq_zero_or_pos n with rfl | hn
      · simp
      · have hd : n / 10 < n := Nat.div_lt_self hn (by norm_num)
        rw [if_neg (Nat.pos_iff_ne_zero.mp hn), if_neg (Nat.pos_iff_ne_zero.mp hn),
          ih f₁ (Nat.lt_succ_self _) f₂ (n / 10) (by omega) (by omega)]

theorem natDigsLE_zero : natDigsLE 0 = [] := rfl

theorem natDigsLE_succ (n : ℕ) (hn : n ≠ 0) :
    natDigsLE n = digChar (n % 10) :: natDigsLE (n / 10) := by
  have hd : n / 10 < n := Nat.div_lt_self (Nat.pos_iff_ne_zero.mpr hn) (by norm_num)
  unfold natDigsLE
  match n, hn with
  | n + 1, _ =>
    simp only [digsCore, if_neg (Nat.succ_ne_zero n)]
    exact congrArg _ (digsCore_congr n ((n + 1) / 10) ((n + 1) / 10) (by omega) le_rfl)

theorem charVal_digChar (d : ℕ) (hd : d < 10) : charVal (digChar d) = d := by
  interval_cases d <;> rfl

theorem isDigitB_digChar (d : ℕ) (hd : d < 10) : isDigitB (digChar d) = true := by
  interval_cases d <;> rfl

theorem valLE_natDigsLE (n : ℕ) : valLE (natDigsLE n) = n := by
  induction n using Nat.strong_induction_on with
  | _ n ih =>
    rcases Nat.eq_zero_or_pos n with rfl | hn
    · rfl
    · rw [natDigsLE_succ n (Nat.pos_iff_ne_zero.mp hn)]
      have hd : n / 10 < n := Nat.div_lt_self hn (by norm_num)
      simp only [valLE, ih _ hd, charVal_digChar _ (Nat.mod_lt n (by norm_num))]
      omega

theorem digsVal_foldl_shift (l : List Char) :
    ∀ a : ℕ, l.foldl (fun a c => 10 * a + charVal c) a = a * 10 ^ l.length + digsVal l := by
  induction l with
  | nil => intro a; simp [digsVal]
  | cons c t ih =>
    intro a
    have h1 : digsVal (c :: t) = charVal c * 10 ^ t.length + digsVal t := by
      show List.foldl _ _ (c :: t) = _
      rw [List.foldl_cons, ih (10 * 0 + charVal c)]
      ring_nf
    rw [List.foldl_cons, ih (10 * a + charVal c), h1, List.length_cons]
    ring

theorem digsVal_append (l₁ l₂ : List Char) :
    digsVal (l₁ ++ l₂) = digsVal l₁ * 10 ^ l₂.length + digsVal l₂ := by
  rw [digsVal, List.foldl_append, digsVal_foldl_shift]
  rfl

theorem digsVal_reverse_valLE (l : List Char) : digsVal l.reverse = valLE l := by
  induction l with
  | nil => rfl
  | cons c t ih =>
    simp only [List.reverse_cons, digsVal_append, ih, valLE]
    simp [digsVal, charVal]
    ring

theorem digsVal_natDigs (n : ℕ) : digsVal (natDigs n) = n := by
  unfold natDigs
  rcases eq_or_ne n 0 with rfl | hn
  · rfl
  · rw [if_neg hn, digsVal_reverse_valLE, valLE_natDigsLE]

theorem natDigsLE_digits (n : ℕ) : ∀ c ∈ natDigsLE n, isDigitB c = true := by
  induction n using Nat.strong_induction_on with
  | _ n ih =>
    rcases Nat.eq_zero_or_pos n with rfl | hn
    · simp [natDigsLE_zero]
    · rw [natDigsLE_succ n (Nat.pos_iff_ne_zero.mp hn)]
      intro c hc
      rcases List.mem_cons.mp hc with rfl | hc
      · exact isDigitB_digChar _ (Nat.mod_lt n (by norm_num))
      · exact ih _ (Nat.div_lt_self hn (by norm_num)) c hc

theorem natDigs_digits (n : ℕ) : ∀ c ∈ natDigs n, isDigitB c = true := by
  unfold natDigs
  rcases eq_or_ne n 0 with rfl | hn
  · simp; rfl
  · rw [if_neg hn]
    intro c hc
    exact natDigsLE_digits n c (List.mem_reverse.mp hc)

theorem natDigs_ne_nil (n : ℕ) : natDigs n ≠ [] := by
  unfold natDigs
  rcases eq_or_ne n 0 with rfl | hn
  · simp
  · rw [if_neg hn]
    intro h
    have h2 : natDigsLE n = [] := List.reverse_eq_nil_iff.mp h
    have := valLE_natDigsLE n
    rw [h2] at this
    simp [valLE] at this
    omega

theorem natDigsLE_length_le (k : ℕ) : ∀ n, n < 10 ^ k → (natDigsLE n).length ≤ k := by
  induction k with
  | zero =>
    intro n hn
    interval_cases n
    simp [natDigsLE_zero]
  | succ k ih =>
    intro n hn
    rcases Nat.eq_zero_or_pos n with rfl | hpos
    · simp [natDigsLE_zero]
    · rw [natDigsLE_succ n (Nat.pos_iff_ne_zero.mp hpos)]
      simp only [List.length_cons]
      have : n / 10 < 10 ^ k := by
        rw [Nat.div_lt_iff_lt_mul (by norm_num)]
        calc n < 10 ^ (k + 1) := hn
        _ = 10 ^ k * 10 := by ring
      exact Nat.succ_le_succ (ih _ this)

theorem natDigs_length_le (n k : ℕ) (hk : 1 ≤ k) (hn : n < 10 ^ k) :
    (natDigs n).length ≤ k := by
  unfold natDigs
  rcases eq_or_ne n 0 with rfl | h0
  · simpa using hk
  · rw [if_neg h0, List.length_reverse]
    exact natDigsLE_length_le k n hn

/-! ### Parser lemmas -/

theorem takeWhile_of_all (p : Char → Bool) (l : List Char) (h : ∀ c ∈ l, p c = true) :
    l.takeWhile p = l := by
  induction l with
  | nil => rfl
  | cons c t ih =>
    rw [List.takeWhile_cons, h c (List.mem_cons_self c t)]
    exact congrArg _ (ih fun c hc => h c (List.mem_cons_of_mem _ hc))

theorem dropWhile_of_all (p : Char → Bool) (l : List Char) (h : ∀ c ∈ l, p c = true) :
    l.dropWhile p = [] := by
  induction l with
  | nil => rfl
  | cons c t ih =>
    rw [List.dropWhile_cons, h c (List.mem_cons_self c t)]
    simp only [if_true]
    exact ih fun c hc => h c (List.mem_cons_of_mem _ hc)

theorem takeWhile_append_stop (p : Char → Bool) (l₁ : List Char) (c : Char) (l₂ : List Char)
    (h₁ : ∀ a ∈ l₁, p a = true) (hc : p c = false) :
    (l₁ ++ c :: l₂).takeWhile p = l₁ ∧ (l₁ ++ c :: l₂).dropWhile p = c :: l₂ := by
  induction l₁ with
  | nil => simp [List.takeWhile_cons, List.dropWhile_cons, hc]
  | cons a t ih =>
    have ha := h₁ a (List.mem_cons_self a t)
    have iht := ih fun x hx => h₁ x (List.mem_cons_of_mem _ hx)
    simp only [List.cons_append, List.takeWhile_cons, List.dropWhile_cons, ha, if_true]
    exact ⟨congrArg _ iht.1, iht.2⟩

theorem all_of_dropWhile_nil (p : Char → Bool) (l : List Char) (h : l.dropWhile p = []) :
    ∀ c ∈ l, p c = true := by
  induction l with
  | nil => simp
  | cons a t ih =>
    rw [List.dropWhile_cons] at h
    by_cases hp : p a = true
    · rw [hp] at h
      simp only [if_true] at h
      intro c hc
      rcases List.mem_cons.mp hc with rfl | hc
      · exact hp
      · exact ih h c hc
    · rw [Bool.not_eq_true] at hp
      rw [hp] at h
      simp at h

theorem mem_dropWhile_of_not (p : Char → Bool) (l : List Char) (c : Char)
    (hc : c ∈ l) (hp : p c = false) : c ∈ l.dropWhile p := by
  induction l with
  | nil => simp at hc
  | cons a t ih =>
    rw [List.dropWhile_cons]
    by_cases ha : p a = true
    · rw [ha]
      simp only [if_true]
      rcases List.mem_cons.mp hc with rfl | hc
      · rw [hp] at ha; exact absurd ha (by simp)
      · exact ih hc
    · rw [Bool.not_eq_true] at ha
      rw [ha]
      simpa using hc

theorem mem_stripWith_of_not (p : Char → Bool) (l : List Char) (c : Char)
    (hc : c ∈ l) (hp : p c = false) : c ∈ stripWith p l := by
  unfold stripWith
  rw [List.mem_reverse]
  exact mem_dropWhile_of_not p _ c (by rw [List.mem_reverse]; exact mem_dropWhile_of_not p l c hc hp) hp

theorem stripWith_of_none (p : Char → Bool) (l : List Char) (h : ∀ c ∈ l, p c = false) :
    stripWith p l = l := by
  have hdrop : ∀ m : List Char, (∀ c ∈ m, p c = false) → m.dropWhile p = m := by
    intro m hm
    cases m with
    | nil => rfl
    | cons a t => rw [List.dropWhile_cons, hm a (List.mem_cons_self a t)]; simp
  unfold stripWith
  rw [hdrop l h, hdrop l.reverse (fun c hc => h c (List.mem_reverse.mp hc)), List.reverse_reverse]

theorem isDigitB_not_space (c : Char) (h : isDigitB c = true) : pyIsSpace c = false := by
  have hn : 48 ≤ c.toNat ∧ c.toNat ≤ 57 := by
    unfold isDigitB at h
    simp only [Bool.and_eq_true, decide_eq_true_eq] at h
    exact h
  unfold pyIsSpace
  simp only [Bool.or_eq_false_iff, beq_eq_false_iff_ne]
  refine ⟨⟨⟨⟨⟨⟨⟨⟨⟨⟨?_, ?_⟩, ?_⟩, ?_⟩, ?_⟩, ?_⟩, ?_⟩, ?_⟩, ?_⟩, ?_⟩, ?_⟩ <;>
    · intro he
      rw [he] at hn
      revert hn
      decide

theorem digit_bne (c d : Char) (h : isDigitB c = true) (hd : isDigitB d = false) :
    (c == d) = false := by
  rw [beq_eq_false_iff_ne]
  intro he
  rw [he] at h
  rw [h] at hd
  cases hd

theorem of_mem_takeWhile (p : Char → Bool) (l : List Char) (c : Char)
    (h : c ∈ l.takeWhile p) : p c = true := by
  induction l with
  | nil => simp [List.takeWhile_nil] at h
  | cons a t ih =>
    rw [List.takeWhile_cons] at h
    by_cases ha : p a = true
    · rw [ha] at h
      simp only [if_true] at h
      rcases List.mem_cons.mp h with rfl | h
      · exact ha
      · exact ih h
    · rw [Bool.not_eq_true] at ha
      rw [ha] at h
      simp at h

theorem parseBody_digits (neg : Bool) (l : List Char) (hne : l ≠ [])
    (h : ∀ c ∈ l, isDigitB c = true) :
    parseBody neg l = some ⟨neg, digsVal l, 0, 0, 0⟩ := by
  unfold parseBody takeDigs dropDigs
  rw [takeWhile_of_all _ _ h, dropWhile_of_all _ _ h]
  simp [parseBodyRest, List.isEmpty_iff, hne]

theorem parseRep_digits (l : List Char) (hne : l ≠ [])
    (h : ∀ c ∈ l, isDigitB c = true) :
    parseRep l = some ⟨false, digsVal l, 0, 0, 0⟩ := by
  match l, hne with
  | c :: t, _ =>
    have hc := h c (List.mem_cons_self c t)
    rw [show parseRep (c :: t) = (if c == '+' then parseBody false t
        else if c == '-' then parseBody true t else parseBody false (c :: t)) from rfl,
      digit_bne c '+' hc (by decide), digit_bne c '-' hc (by decide)]
    simp only [Bool.false_eq_true, if_false]
    exact parseBody_digits false (c :: t) (by simp) h

theorem repVal_whole (neg : Bool) (n : ℕ) :
    repVal ⟨neg, n, 0, 0, 0⟩ = (if neg then (-1 : ℚ) else 1) * n := by
  simp [repVal]

theorem repVal_frac (n f k : ℕ) :
    repVal ⟨false, n, f, k, 0⟩ = (n : ℚ) + (f : ℚ) / 10 ^ k := by
  simp [repVal]

theorem parseFloatL_digits (l : List Char) (hne : l ≠ [])
    (h : ∀ c ∈ l, isDigitB c = true) :
    parseFloatL l = some ((digsVal l : ℚ)) := by
  unfold parseFloatL stripWSL
  rw [stripWith_of_none _ _ (fun c hc => isDigitB_not_space c (h c hc)),
    parseRep_digits l hne h]
  simp [repVal_whole]

theorem parseFloatL_natDigs (n : ℕ) : parseFloatL (natDigs n) = some (n : ℚ) := by
  rw [parseFloatL_digits (natDigs n) (natDigs_ne_nil n) (natDigs_digits n), digsVal_natDigs]

theorem parseBody_point (neg : Bool) (l₁ l₂ : List Char) (h1ne : l₁ ≠ [])
    (h1 : ∀ c ∈ l₁, isDigitB c = true) (h2 : ∀ c ∈ l₂, isDigitB c = true) :
    parseBody neg (l₁ ++ '.' :: l₂) = some ⟨neg, digsVal l₁, digsVal l₂, l₂.length, 0⟩ := by
  have hsplit := takeWhile_append_stop isDigitB l₁ '.' l₂ h1 (by decide)
  unfold parseBody takeDigs dropDigs
  rw [hsplit.1, hsplit.2]
  simp only [parseBodyRest, beq_self_eq_true, if_true]
  unfold takeDigs dropDigs
  rw [takeWhile_of_all _ _ h2, dropWhile_of_all _ _ h2]
  simp [List.isEmpty_iff, h1ne, withExp]

theorem parseRep_point (l₁ l₂ : List Char) (h1ne : l₁ ≠ [])
    (h1 : ∀ c ∈ l₁, isDigitB c = true) (h2 : ∀ c ∈ l₂, isDigitB c = true) :
    parseRep (l₁ ++ '.' :: l₂) = some ⟨false, digsVal l₁, digsVal l₂, l₂.length, 0⟩ := by
  match l₁, h1ne with
  | c :: t, _ =>
    have hc := h1 c (List.mem_cons_self c t)
    rw [List.cons_append,
      show parseRep (c :: (t ++ '.' :: l₂)) = (if c == '+' then parseBody false (t ++ '.' :: l₂)
        else if c == '-' then parseBody true (t ++ '.' :: l₂)
        else parseBody false (c :: (t ++ '.' :: l₂))) from rfl,
      digit_bne c '+' hc (by decide), digit_bne c '-' hc (by decide)]
    simp only [Bool.false_eq_true, if_false]
    rw [← List.cons_append]
    exact parseBody_point false (c :: t) l₂ (by simp) h1 h2

theorem parseFloatL_point (l₁ l₂ : List Char) (h1ne : l₁ ≠ [])
    (h1 : ∀ c ∈ l₁, isDigitB c = true) (h2 : ∀ c ∈ l₂, isDigitB c = true) :
    parseFloatL (l₁ ++ '.' :: l₂) =
      some ((digsVal l₁ : ℚ) + (digsVal l₂ : ℚ) / 10 ^ l₂.length) := by
  unfold parseFloatL stripWSL
  have hns : ∀ c ∈ l₁ ++ '.' :: l₂, pyIsSpace c = false := by
    intro c hc
    rcases List.mem_append.mp hc with hc | hc
    · exact isDigitB_not_space c (h1 c hc)
    · rcases List.mem_cons.mp hc with rfl | hc
      · decide
      · exact isDigitB_not_space c (h2 c hc)
  rw [stripWith_of_none _ _ hns, parseRep_point l₁ l₂ h1ne h1 h2]
  simp [repVal_frac]

theorem parseExpDigs_chars (neg : Bool) (l : List Char) (e : ℤ)
    (h : parseExpDigs neg l = some e) : ∀ c ∈ l, isDigitB c = true := by
  unfold parseExpDigs at h
  by_cases h1 : l.isEmpty = true
  · rw [if_pos h1] at h; cases h
  · rw [if_neg h1] at h
    by_cases h2 : (dropDigs l).isEmpty = true
    · exact all_of_dropWhile_nil _ _ (List.isEmpty_iff.mp h2)
    · rw [if_neg h2] at h; cases h

theorem parseExpTail_chars (l : List Char) (e : ℤ) (h : parseExpTail l = some e) :
    ∀ c ∈ l, (isDigitB c || c == '+' || c == '-') = true := by
  match l with
  | [] => simp
  | c :: t =>
    rw [show parseExpTail (c :: t) = (if c == '+' then parseExpDigs false t
      else if c == '-' then parseExpDigs true t else parseExpDigs false (c :: t)) from rfl] at h
    intro a ha
    by_cases hp : (c == '+') = true
    · rw [if_pos hp] at h
      rcases List.mem_cons.mp ha with rfl | ha
      · rw [hp]; simp
      · rw [parseExpDigs_chars _ _ _ h a ha]; rfl
    · rw [if_neg hp] at h
      by_cases hm : (c == '-') = true
      · rw [if_pos hm] at h
        rcases List.mem_cons.mp ha with rfl | ha
        · rw [hm]; simp
        · rw [parseExpDigs_chars _ _ _ h a ha]; rfl
      · rw [if_neg hm] at h
        rw [parseExpDigs_chars _ _ _ h a ha]; rfl

theorem withExp_chars (neg : Bool) (ip fp fpLen : ℕ) (l : List Char) (r : FloatRep)
    (h : withExp neg ip fp fpLen l = some r) : ∀ c ∈ l, goodChar c = true := by
  match l with
  | [] => simp
  | c :: t =>
    rw [show withExp neg ip fp fpLen (c :: t) = (if c == 'e' || c == 'E' then
      (parseExpTail t).map (fun e => ⟨neg, ip, fp, fpLen, e⟩) else none) from rfl] at h
    by_cases he : (c == 'e' || c == 'E') = true
    · rw [if_pos he] at h
      rcases Option.map_eq_some'.mp h with ⟨e, he2, _⟩
      intro a ha
      rcases List.mem_cons.mp ha with rfl | ha
      · unfold goodChar
        rcases Bool.or_eq_true_iff.mp he with h3 | h3 <;> rw [h3] <;> simp
      · have := parseExpTail_chars t e he2 a ha
        unfold goodChar
        rcases Bool.or_eq_true_iff.mp this with h3 | h3
        · rcases Bool.or_eq_true_iff.mp h3 with h4 | h4 <;> rw [h4] <;> simp
        · rw [h3]; simp
    · rw [if_neg he] at h; cases h

theorem parseBodyRest_chars (neg : Bool) (ip : List Char) (l : List Char) (r : FloatRep)
    (h : parseBodyRest neg ip l = some r) : ∀ c ∈ l, goodChar c = true := by
  match l with
  | [] => simp
  | c₂ :: r₂ =>
    rw [show parseBodyRest neg ip (c₂ :: r₂) = (if c₂ == '.' then
        if ip.isEmpty && (takeDigs r₂).isEmpty then none
        else withExp neg (digsVal ip) (digsVal (takeDigs r₂)) (takeDigs r₂).length (dropDigs r₂)
      else if ip.isEmpty then none
      else withExp neg (digsVal ip) 0 0 (c₂ :: r₂)) from rfl] at h
    intro c hc
    by_cases hdot : (c₂ == '.') = true
    · rw [if_pos hdot] at h
      by_cases hemp : (ip.isEmpty && (takeDigs r₂).isEmpty) = true
      · rw [if_pos hemp] at h; cases h
      · rw [if_neg hemp] at h
        rcases List.mem_cons.mp hc with rfl | hc
        · unfold goodChar
          rw [hdot]
          simp
        · have hsplit2 : takeDigs r₂ ++ dropDigs r₂ = r₂ := by
            unfold takeDigs dropDigs
            exact List.takeWhile_append_dropWhile isDigitB r₂
          rw [← hsplit2] at hc
          rcases List.mem_append.mp hc with hc | hc
          · unfold goodChar
            rw [of_mem_takeWhile isDigitB r₂ c hc]
            simp
          · exact withExp_chars _ _ _ _ _ _ h c hc
    · rw [if_neg hdot] at h
      by_cases hemp : ip.isEmpty = true
      · rw [if_pos hemp] at h; cases h
      · rw [if_neg hemp] at h
        exact withExp_chars _ _ _ _ _ _ h c hc

theorem parseBody_chars (neg : Bool) (l : List Char) (r : FloatRep)
    (h : parseBody neg l = some r) : ∀ c ∈ l, goodChar c = true := by
  have hsplit : takeDigs l ++ dropDigs l = l := by
    unfold takeDigs dropDigs
    exact List.takeWhile_append_dropWhile isDigitB l
  intro c hc
  rw [← hsplit] at hc
  rcases List.mem_append.mp hc with hc | hc
  · unfold goodChar
    rw [of_mem_takeWhile isDigitB l c hc]
    simp
  · exact parseBodyRest_chars neg (takeDigs l) (dropDigs l) r h c hc

theorem parseRep_chars (l : List Char) (r : FloatRep) (h : parseRep l = some r) :
    ∀ c ∈ l, goodChar c = true := by
  match l with
  | [] => simp
  | c :: t =>
    rw [show parseRep (c :: t) = (if c == '+' then parseBody false t
      else if c == '-' then parseBody true t else parseBody false (c :: t)) from rfl] at h
    intro a ha
    by_cases hp : (c == '+') = true
    · rw [if_pos hp] at h
      rcases List.mem_cons.mp ha with rfl | ha
      · unfold goodChar; rw [hp]; simp
      · exact parseBody_chars _ _ _ h a ha
    · rw [if_neg hp] at h
      by_cases hm : (c == '-') = true
      · rw [if_pos hm] at h
        rcases List.mem_cons.mp ha with rfl | ha
        · unfold goodChar; rw [hm]; simp
        · exact parseBody_chars _ _ _ h a ha
      · rw [if_neg hm] at h
        exact parseBody_chars _ _ _ h a ha

/-- `float()` rejects any string containing a non-whitespace character that
is not a digit, sign, point or exponent letter (in particular a comma or an
interior narrow no-break space). -/
theorem parseFloatL_none_of_bad (l : List Char) (c : Char) (hc : c ∈ l)
    (hsp : pyIsSpace c = false) (hgood : goodChar c = false) : parseFloatL l = none := by
  unfold parseFloatL
  rcases hrep : parseRep (stripWSL l) with _ | r
  · rfl
  · have := parseRep_chars _ _ hrep c (mem_stripWith_of_not _ _ _ hc hsp)
    rw [hgood] at this
    cases this

theorem parseFloatL_comma_none (l : List Char) (hc : ',' ∈ l) : parseFloatL l = none :=
  parseFloatL_none_of_bad l ',' hc (by decide) (by decide)

theorem then_lt_iff (x y : Ordering) : x.then y = .lt ↔ x = .lt ∨ (x = .eq ∧ y = .lt) := by
  cases x <;> simp [Ordering.then]

theorem then_eq_iff (x y : Ordering) : x.then y = .eq ↔ x = .eq ∧ y = .eq := by
  cases x <;> simp [Ordering.then]

theorem then_gt_iff (x y : Ordering) : x.then y = .gt ↔ x = .gt ∨ (x = .eq ∧ y = .gt) := by
  cases x <;> simp [Ordering.then]

theorem then_swap (x y : Ordering) : (x.then y).swap = x.swap.then y.swap := by
  cases x <;> cases y <;> rfl

theorem char_eq_of_toNat (a b : Char) (h : a.toNat = b.toNat) : a = b := by
  have ha := Char.ofNat_toNat a
  rw [← ha, h, Char.ofNat_toNat]

theorem cmpCh_ok : CmpOK cmpCh := by
  refine ⟨?_, ?_, ?_⟩
  · intro a b
    unfold cmpCh
    split_ifs <;> first | rfl | (exfalso; omega)
  · intro a b d h1 h2
    unfold cmpCh at *
    split_ifs at * <;> first | rfl | omega | simp_all
  · intro a b h d
    unfold cmpCh at h ⊢
    have hn : a.toNat = b.toNat := by
      by_contra hne
      rcases Nat.lt_or_ge a.toNat b.toNat with hlt | hge
      · rw [if_pos hlt] at h; cases h
      · have hgt : b.toNat < a.toNat := by omega
        rw [if_neg (by omega), if_pos hgt] at h; cases h
    rw [hn]

theorem cmpN_ok : CmpOK cmpN := by
  refine ⟨?_, ?_, ?_⟩
  · intro a b
    unfold cmpN
    split_ifs <;> first | rfl | (exfalso; omega)
  · intro a b d h1 h2
    unfold cmpN at *
    split_ifs at * <;> first | rfl | omega | simp_all
  · intro a b h d
    unfold cmpN at h ⊢
    have hn : a = b := by
      by_contra hne
      rcases Nat.lt_or_ge a b with hlt | hge
      · rw [if_pos hlt] at h; cases h
      · have hgt : b < a := by omega
        rw [if_neg (by omega), if_pos hgt] at h; cases h
    rw [hn]

theorem cmpOK_then {α : Type} (c1 c2 : α → α → Ordering) (h1 : CmpOK c1) (h2 : CmpOK c2) :
    CmpOK (fun a b => (c1 a b).then (c2 a b)) := by
  obtain ⟨s1, t1, e1⟩ := h1
  obtain ⟨s2, t2, e2⟩ := h2
  have congr1 : ∀ a b, c1 a b = .eq → ∀ d, c1 d a = c1 d b := by
    intro a b hab d
    rw [s1 d a, s1 d b, e1 a b hab d]
  refine ⟨?_, ?_, ?_⟩
  · intro a b
    show (c1 a b).then (c2 a b) = ((c1 b a).then (c2 b a)).swap
    rw [then_swap, ← s1, ← s2]
  · intro a b d hab hbd
    simp only [then_lt_iff] at hab hbd ⊢
    rcases hab with h1 | ⟨h1, h1'⟩ <;> rcases hbd with h2 | ⟨h2, h2'⟩
    · exact Or.inl (t1 a b d h1 h2)
    · left
      rw [← congr1 b d h2 a]
      exact h1
    · left
      rw [e1 a b h1 d]
      exact h2
    · right
      constructor
      · rw [e1 a b h1 d]
        exact h2
      · exact t2 a b d h1' h2'
  · intro a b h d
    simp only [then_eq_iff] at h
    show (c1 a d).then (c2 a d) = (c1 b d).then (c2 b d)
    rw [e1 a b h.1 d, e2 a b h.2 d]

theorem cmpOK_comap {α β : Type} (f : β → α) (c : α → α → Ordering) (h : CmpOK c) :
    CmpOK (fun a b => c (f a) (f b)) := by
  obtain ⟨s, t, e⟩ := h
  exact ⟨fun a b => s (f a) (f b), fun a b d => t (f a) (f b) (f d),
    fun a b hab d => e (f a) (f b) hab (f d)⟩

theorem cmpCharList_swap : ∀ a b, cmpCharList a b = (cmpCharList b a).swap := by
  intro a
  induction a with
  | nil => intro b; cases b <;> rfl
  | cons x xs ih =>
    intro b
    cases b with
    | nil => rfl
    | cons y ys =>
      show (cmpCh x y).then (cmpCharList xs ys) = ((cmpCh y x).then (cmpCharList ys xs)).swap
      rw [then_swap, ← cmpCh_ok.1, ← ih ys]

theorem cmpCharList_lt_trans : ∀ a b d, cmpCharList a b = .lt → cmpCharList b d = .lt →
    cmpCharList a d = .lt := by
  intro a
  induction a with
  | nil =>
    intro b d h1 h2
    cases b with
    | nil => exact h2
    | cons y ys =>
      cases d with
      | nil => cases h2
      | cons z zs => rfl
  | cons x xs ih =>
    intro b d h1 h2
    cases b with
    | nil => cases h1
    | cons y ys =>
      cases d with
      | nil => cases h2
      | cons z zs =>
        replace h1 : (cmpCh x y).then (cmpCharList xs ys) = .lt := h1
        replace h2 : (cmpCh y z).then (cmpCharList ys zs) = .lt := h2
        show (cmpCh x z).then (cmpCharList xs zs) = .lt
        rw [then_lt_iff] at h1 h2 ⊢
        rcases h1 with h1 | ⟨h1, h1'⟩ <;> rcases h2 with h2 | ⟨h2, h2'⟩
        · exact Or.inl (cmpCh_ok.2.1 x y z h1 h2)
        · left
          have hzy : cmpCh z y = .eq := by
            rw [cmpCh_ok.1 z y, h2]; rfl
          rw [cmpCh_ok.1 x z, cmpCh_ok.2.2 z y hzy x, ← cmpCh_ok.1 x y, h1]
        · left
          rw [cmpCh_ok.2.2 x y h1 z]
          exact h2
        · right
          refine ⟨?_, ih ys zs h1' h2'⟩
          rw [cmpCh_ok.2.2 x y h1 z]
          exact h2

theorem cmpCharList_eq_congr : ∀ a b, cmpCharList a b = .eq →
    ∀ d, cmpCharList a d = cmpCharList b d := by
  intro a
  induction a with
  | nil =>
    intro b h d
    cases b with
    | nil => rfl
    | cons y ys => cases h
  | cons x xs ih =>
    intro b h d
    cases b with
    | nil => cases h
    | cons y ys =>
      replace h : (cmpCh x y).then (cmpCharList xs ys) = .eq := h
      rw [then_eq_iff] at h
      have hxyn : x.toNat = y.toNat := by
        have := h.1
        unfold cmpCh at this
        split_ifs at this <;> omega
      have hxy : x = y := char_eq_of_toNat x y hxyn
      subst hxy
      cases d with
      | nil => rfl
      | cons z zs =>
        show (cmpCh x z).then (cmpCharList xs zs) = (cmpCh x z).then (cmpCharList ys zs)
        rw [ih ys h.2 zs]

theorem cmpCharList_ok : CmpOK cmpCharList :=
  ⟨cmpCharList_swap, cmpCharList_lt_trans, cmpCharList_eq_congr⟩

theorem cmpStr_ok : CmpOK cmpStr :=
  cmpOK_comap String.data cmpCharList cmpCharList_ok

theorem cmpDate_ok : CmpOK cmpDate := by
  have h1 := cmpOK_then _ _ (cmpOK_comap PDate.y cmpN cmpN_ok) (cmpOK_comap PDate.m cmpN cmpN_ok)
  exact cmpOK_then _ _ h1 (cmpOK_comap PDate.d cmpN cmpN_ok)

theorem cmpOD_ok : CmpOK cmpOD := by
  obtain ⟨s, t, e⟩ := cmpDate_ok
  refine ⟨?_, ?_, ?_⟩
  · intro a b
    cases a <;> cases b <;> simp only [cmpOD, Ordering.swap]
    exact s _ _
  · intro a b d h1 h2
    cases a <;> cases b <;> cases d <;> simp only [cmpOD] at h1 h2 ⊢ <;>
      first | rfl | exact absurd h1 (by decide) | exact absurd h2 (by decide) |
        exact t _ _ _ h1 h2
  · intro a b h d
    cases a <;> cases b <;> simp only [cmpOD] at h ⊢
    · exact absurd h (by decide)
    · exact absurd h (by decide)
    · cases d
      · rfl
      · simp only [cmpOD]
        exact e _ _ h _

theorem cmpKey3_ok : CmpOK cmpKey3 := by
  have h1 := cmpOK_then _ _ (cmpOK_comap RKey.name cmpStr cmpStr_ok)
    (cmpOK_comap RKey.lotNo cmpStr cmpStr_ok)
  exact cmpOK_then _ _ h1 (cmpOK_comap RKey.expiry cmpOD cmpOD_ok)

theorem cmpKey5_ok : CmpOK cmpKey5 := by
  have h1 := cmpOK_then _ _ cmpKey3_ok (cmpOK_comap RKey.itemNo cmpStr cmpStr_ok)
  exact cmpOK_then _ _ h1 (cmpOK_comap RKey.uom cmpStr cmpStr_ok)

theorem leOf_total {α : Type} (c : α → α → Ordering) (h : CmpOK c) (a b : α) :
    c a b ≠ .gt ∨ c b a ≠ .gt := by
  rcases hab : c a b with _ | _ | _
  · left; simp
  · left; simp
  · right
    rw [h.1 b a, hab]
    simp [Ordering.swap]

theorem leOf_trans {α : Type} (c : α → α → Ordering) (h : CmpOK c) (a b d : α)
    (h1 : c a b ≠ .gt) (h2 : c b d ≠ .gt) : c a d ≠ .gt := by
  rcases hab : c a b with _ | _ | _
  · rcases hbd : c b d with _ | _ | _
    · rw [h.2.1 a b d hab hbd]; simp
    · have hdb : c d b = .eq := by
        rw [h.1 d b, hbd]; rfl
      have hc := h.2.2 d b hdb a
      rw [h.1 a d, hc, ← h.1 a b, hab]
      simp [Ordering.swap]
    · exact absurd hbd h2
  · rw [h.2.2 a b hab d]
    exact h2
  · exact absurd hab h1

/-! ### Grouping and sorting lemmas -/

theorem le53 (a b : RKey) (h : cmpKey5 a b ≠ .gt) : cmpKey3 a b ≠ .gt := by
  intro h3
  apply h
  unfold cmpKey5
  rw [h3]
  rfl

theorem groupKeys_sorted (rs : List Row) :
    (groupKeys rs).Pairwise fun a b => cmpKey5 a b ≠ .gt := by
  letI : IsTotal RKey fun a b => cmpKey5 a b ≠ .gt := ⟨fun a b => leOf_total _ cmpKey5_ok a b⟩
  letI : IsTrans RKey fun a b => cmpKey5 a b ≠ .gt :=
    ⟨fun a b c => leOf_trans _ cmpKey5_ok a b c⟩
  exact List.sorted_insertionSort _ _

theorem groupKeys_perm (rs : List Row) :
    List.Perm (groupKeys rs) (rs.map rowKey).dedup :=
  List.perm_insertionSort _ _

theorem groupKeys_nodup (rs : List Row) : (groupKeys rs).Nodup :=
  (groupKeys_perm rs).nodup_iff.mpr (List.nodup_dedup _)

theorem groupKeys_mem (rs : List Row) (k : RKey) :
    k ∈ groupKeys rs ↔ k ∈ rs.map rowKey := by
  rw [(groupKeys_perm rs).mem_iff, List.mem_dedup]

/-- After the stable three-column sort the grouped table is unchanged: the
`groupby(sort=True)` iteration order is already sorted by the full
five-column key, hence also by its three-column front. -/
theorem groupedPairs_eq (b : Bool) (rs : List Row) :
    groupedPairs b rs =
      (groupKeys (keptRows b rs)).map fun k => (k, sumQtyOver (keptRows b rs) k) := by
  unfold groupedPairs
  exact List.Sorted.insertionSort_eq
    (List.Pairwise.map _ (fun a b h => le53 a b h) (groupKeys_sorted _))

theorem groupedPairs_sorted5 (b : Bool) (rs : List Row) :
    (groupedPairs b rs).Pairwise fun p q => cmpKey5 p.1 q.1 ≠ .gt := by
  rw [groupedPairs_eq]
  exact List.Pairwise.map _ (fun a b h => h) (groupKeys_sorted _)

theorem groupedPairs_sorted3 (b : Bool) (rs : List Row) :
    (groupedPairs b rs).Pairwise fun p q => cmpKey3 p.1 q.1 ≠ .gt :=
  (groupedPairs_sorted5 b rs).imp fun h => le53 _ _ h

theorem filter_eq_singleton_of_nodup (l : List RKey) (hn : l.Nodup) (k : RKey) (hk : k ∈ l) :
    l.filter (fun x => decide (x = k)) = [k] := by
  induction l with
  | nil => simp at hk
  | cons a t ih =>
    rcases List.mem_cons.mp hk with rfl | hk
    · rw [List.filter_cons_of_pos (by simp)]
      have hnt : k ∉ t := (List.nodup_cons.mp hn).1
      have : t.filter (fun x => decide (x = k)) = [] := by
        rw [List.filter_eq_nil_iff]
        intro x hx
        simp only [decide_eq_true_eq]
        intro hxa
        exact hnt (hxa ▸ hx)
      rw [this]
    · have hna : ¬(a = k) := by
        rintro rfl
        exact (List.nodup_cons.mp hn).1 hk
      rw [List.filter_cons_of_neg (by simpa using hna)]
      exact ih (List.nodup_cons.mp hn).2 hk

/-- The grouped table has exactly one entry for every key occurring among
the kept records, and that entry carries the signed quantity sum. -/
theorem groupedPairs_filter_key (b : Bool) (rs : List Row) (k : RKey)
    (hk : k ∈ (keptRows b rs).map rowKey) :
    (groupedPairs b rs).filter (fun p => decide (p.1 = k)) =
      [(k, sumQtyOver (keptRows b rs) k)] := by
  rw [groupedPairs_eq, List.filter_map]
  have hcomp : ((fun p : RKey × ℚ => decide (p.1 = k)) ∘
      fun k' => (k', sumQtyOver (keptRows b rs) k')) = fun x => decide (x = k) := by
    funext x
    rfl
  rw [hcomp, filter_eq_singleton_of_nodup _ (groupKeys_nodup _) k
    ((groupKeys_mem _ k).mpr hk)]
  rfl

/-- Every grouped pair originates from at least one kept record with that
exact grouping key, and carries the key's signed sum. -/
theorem groupedPairs_source (b : Bool) (rs : List Row) (p : RKey × ℚ)
    (hp : p ∈ groupedPairs b rs) :
    ∃ rec ∈ keptRows b rs, rowKey rec = p.1 ∧ p.2 = sumQtyOver (keptRows b rs) p.1 := by
  rw [groupedPairs_eq] at hp
  rcases List.mem_map.mp hp with ⟨k, hk, rfl⟩
  rcases List.mem_map.mp ((groupKeys_mem _ k).mp hk) with ⟨rec, hrec, hkey⟩
  exact ⟨rec, hrec, hkey, rfl⟩

theorem build_rows_length (b : Bool) (rs : List Row) :
    (build_rows_for_document b rs).length = (groupedPairs b rs).length := by
  unfold build_rows_for_document
  rw [List.length_map, List.enum_length]

theorem build_rows_getElem (b : Bool) (rs : List Row) (i : ℕ)
    (hi : i < (groupedPairs b rs).length)
    (hi2 : i < (build_rows_for_document b rs).length) :
    (build_rows_for_document b rs)[i] = renderPair (i, (groupedPairs b rs)[i]) := by
  unfold build_rows_for_document
  rw [List.getElem_map, List.getElem_enum]

theorem build_rows_lp (b : Bool) (rs : List Row) :
    (build_rows_for_document b rs).map ReportRow.lp =
      List.range' 1 (groupedPairs b rs).length := by
  unfold build_rows_for_document
  rw [List.map_map]
  have h1 : (ReportRow.lp ∘ renderPair) = (fun ip : ℕ × (RKey × ℚ) => ip.1 + 1) := by
    funext ip
    rfl
  rw [h1]
  have h2 : (fun ip : ℕ × (RKey × ℚ) => ip.1 + 1) =
      ((fun n => n + 1) ∘ Prod.fst) := rfl
  rw [h2, ← List.map_map, List.enum_map_fst, List.range'_eq_map_range]
  apply List.map_congr_left
  intro a _
  omega

theorem keptRows_sub (b : Bool) (rs : List Row) (r : Row) (h : r ∈ keptRows b rs) : r ∈ rs := by
  unfold keptRows at h
  cases b with
  | false => exact h
  | true => exact (List.mem_filter.mp h).1

/-- C1: `build_rows_for_document` retains (when a document-type column is
present) exactly the records whose document type contains the outbound
marker or whose quantity is negative, and for every grouping key occurring
among the retained records the grouped table has exactly one entry whose
quantity is the signed sum, and the corresponding output row's quantity is
the absolute value of that sum. -/
theorem claim_C1 (b : Bool) (rs : List Row) (k : RKey)
    (hk : k ∈ (keptRows b rs).map rowKey) :
    keptRows true rs = rs.filter outboundKeep ∧
    keptRows false rs = rs ∧
    (groupedPairs b rs).filter (fun p => decide (p.1 = k)) =
      [(k, sumQtyOver (keptRows b rs) k)] ∧
    ∀ i (hi : i < (groupedPairs b rs).length)
      (hi2 : i < (build_rows_for_document b rs).length), ((groupedPairs b rs)[i]).1 = k →
      ((build_rows_for_document b rs)[i]).qty =
        |sumQtyOver (keptRows b rs) k| := by
  refine ⟨rfl, rfl, groupedPairs_filter_key b rs k hk, ?_⟩
  intro i hi hi2 hk2
  rw [build_rows_getElem b rs i hi hi2]
  show |((groupedPairs b rs)[i]).2| = _
  have hmem : (groupedPairs b rs)[i] ∈ groupedPairs b rs := List.getElem_mem hi
  have hfil : (groupedPairs b rs)[i] ∈
      (groupedPairs b rs).filter (fun p => decide (p.1 = k)) := by
    rw [List.mem_filter]
    exact ⟨hmem, by simp [hk2]⟩
  rw [groupedPairs_filter_key b rs k hk] at hfil
  have h := List.mem_singleton.mp hfil
  rw [h]

theorem claim_C1_witness :
    (groupedPairs true [wRow1, wRow2]).filter (fun p => decide (p.1 = rowKey wRow1)) =
      [(rowKey wRow1, sumQtyOver (keptRows true [wRow1, wRow2]) (rowKey wRow1))] :=
  (claim_C1 true [wRow1, wRow2] (rowKey wRow1) (by decide)).2.2.1

/-- C5: for a fixed input the aggregation is deterministic; the grouped
table is sorted by (name, lot, expiry), and in fact by the full five-column
key, so ties are broken by the grouping-table iteration order (stability);
the output rows are the grouped pairs in order; and the sequence numbers
are exactly `1, 2, ..., n` in final order. -/
theorem claim_C5 (b : Bool) (rs : List Row) :
    build_rows_for_document b rs = build_rows_for_document b rs ∧
    ((groupedPairs b rs).Pairwise fun p q => cmpKey3 p.1 q.1 ≠ .gt) ∧
    ((groupedPairs b rs).Pairwise fun p q => cmpKey5 p.1 q.1 ≠ .gt) ∧
    build_rows_for_document b rs = ((groupedPairs b rs).enum).map renderPair ∧
    (build_rows_for_document b rs).map ReportRow.lp =
      List.range' 1 (groupedPairs b rs).length :=
  ⟨rfl, groupedPairs_sorted3 b rs, groupedPairs_sorted5 b rs, rfl, build_rows_lp b rs⟩

/-- C8: rows whose document number contains `/KG/` or whose name starts
with `OP-` are absent from the loaded table, and every aggregated report
row of every document originates from retained records only. -/
theorem claim_C8 (rs : List Row) :
    (∀ r ∈ load_csv_filter rs,
      strContains r.docNo "/KG/" = false ∧ strStarts r.name "OP-" = false) ∧
    (∀ r ∈ rs, (strContains r.docNo "/KG/" = true ∨ strStarts r.name "OP-" = true) →
      r ∉ load_csv_filter rs) ∧
    (∀ (b : Bool) (docSel : Row → Bool) (row : ReportRow),
      row ∈ build_rows_for_document b ((load_csv_filter rs).filter docSel) →
      ∃ rec ∈ (load_csv_filter rs).filter docSel,
        strContains rec.docNo "/KG/" = false ∧ strStarts rec.name "OP-" = false ∧
        stripStr rec.name = row.name ∧ stripStr rec.lotNo = row.lot_no ∧
        rec.expiry = row.expiry ∧ stripStr rec.itemNo = row.item_no) := by
  have part1 : ∀ r ∈ load_csv_filter rs,
      strContains r.docNo "/KG/" = false ∧ strStarts r.name "OP-" = false := by
    intro r hr
    unfold load_csv_filter at hr
    have h2 := List.mem_filter.mp hr
    have h1 := List.mem_filter.mp h2.1
    constructor
    · have := h1.2
      unfold docNoKeep at this
      simpa using this
    · have := h2.2
      unfold nameKeep at this
      simpa using this
  refine ⟨part1, ?_, ?_⟩
  · intro r _ hbad hmem
    rcases part1 r hmem with ⟨h1, h2⟩
    rcases hbad with hb | hb
    · rw [hb] at h1; cases h1
    · rw [hb] at h2; cases h2
  · intro b docSel row hrow
    rcases List.mem_iff_getElem.mp hrow with ⟨i, hi, hget⟩
    have hi' : i < (groupedPairs b ((load_csv_filter rs).filter docSel)).length := by
      rw [← build_rows_length]; exact hi
    rw [build_rows_getElem b _ i hi' hi] at hget
    have hp : (groupedPairs b ((load_csv_filter rs).filter docSel))[i] ∈
        groupedPairs b ((load_csv_filter rs).filter docSel) := List.getElem_mem hi'
    rcases groupedPairs_source b _ _ hp with ⟨rec, hrec, hkey, _⟩
    have hrec2 : rec ∈ (load_csv_filter rs).filter docSel := keptRows_sub b _ rec hrec
    rcases part1 rec (List.mem_filter.mp hrec2).1 with ⟨hkg, hop⟩
    refine ⟨rec, hrec2, hkg, hop, ?_, ?_, ?_, ?_⟩
    · rw [← hget]
      exact congrArg (fun k => stripStr k.name) hkey
    · rw [← hget]
      exact congrArg (fun k => stripStr k.lotNo) hkey
    · rw [← hget]
      exact congrArg (fun k => k.expiry) hkey
    · rw [← hget]
      exact congrArg (fun k => stripStr k.itemNo) hkey

theorem claim_C8_witness :
    wRowKG ∉ load_csv_filter [wRow1, wRowKG, wRowOP] ∧
    wRowOP ∉ load_csv_filter [wRow1, wRowKG, wRowOP] :=
  ⟨(claim_C8 [wRow1, wRowKG, wRowOP]).2.1 wRowKG (by decide) (Or.inl (by decide)),
   (claim_C8 [wRow1, wRowKG, wRowOP]).2.1 wRowOP (by decide) (Or.inr (by decide))⟩

/-- C10: the `/KG/` document-number exclusion is case-sensitive: a row is
dropped by that mask exactly when its document number contains the exact
substring `/KG/`; containing only the lowercase `/kg/` does not trigger
the mask, and such a row (when it also passes the independent `OP-` name
filter) is retained by `load_csv`. -/
theorem claim_C10 (rs : List Row) (r : Row) (hr : r ∈ rs) :
    (strContains r.docNo "/KG/" = true →
      r ∉ rs.filter docNoKeep ∧ r ∉ load_csv_filter rs) ∧
    (strContains r.docNo "/KG/" = false → r ∈ rs.filter docNoKeep ∧
      (strStarts r.name "OP-" = false → r ∈ load_csv_filter rs)) ∧
    (strContains r.docNo "/kg/" = true → strContains r.docNo "/KG/" = false →
      strStarts r.name "OP-" = false → r ∈ load_csv_filter rs) := by
  have hdoc : ∀ hkg : strContains r.docNo "/KG/" = false, r ∈ rs.filter docNoKeep := by
    intro hkg
    rw [List.mem_filter]
    refine ⟨hr, ?_⟩
    unfold docNoKeep
    rw [hkg]
    rfl
  refine ⟨?_, ?_, ?_⟩
  · intro hkg
    have hnk : docNoKeep r = false := by
      unfold docNoKeep
      rw [hkg]
      rfl
    constructor
    · intro hmem
      rw [List.mem_filter, hnk] at hmem
      cases hmem.2
    · intro hmem
      unfold load_csv_filter at hmem
      have := (List.mem_filter.mp (List.mem_filter.mp hmem).1).2
      rw [hnk] at this
      cases this
  · intro hkg
    refine ⟨hdoc hkg, ?_⟩
    intro hop
    unfold load_csv_filter
    rw [List.mem_filter]
    refine ⟨hdoc hkg, ?_⟩
    unfold nameKeep
    rw [hop]
    rfl
  · intro _ hkg hop
    unfold load_csv_filter
    rw [List.mem_filter]
    refine ⟨hdoc hkg, ?_⟩
    unfold nameKeep
    rw [hop]
    rfl

theorem claim_C10_witness : wRowkg ∈ load_csv_filter [wRowkg] :=
  (claim_C10 [wRowkg] wRowkg (by decide)).2.2 (by decide) (by decide) (by decide)

theorem apply_uom_length (lookup : SMap) (rs : List Row) :
    (apply_uom_lookup lookup rs).length = rs.length := by
  unfold apply_uom_lookup
  split
  · rfl
  · rw [List.length_map]

theorem apply_uom_pointwise (lookup : SMap) (rs : List Row) :
    apply_uom_lookup lookup rs = rs.map fun r =>
      match dGet lookup (normCode r.itemNo) with
      | some u => if u ≠ "" then { r with uom := u } else r
      | none => r := by
  unfold apply_uom_lookup
  split
  · rename_i h
    have hl : lookup = [] := List.isEmpty_iff.mp h
    subst hl
    have hid : ∀ r ∈ rs, (match dGet [] (normCode r.itemNo) with
        | some u => if u ≠ "" then { r with uom := u } else r
        | none => r) = id r := fun r _ => rfl
    rw [List.map_congr_left hid, List.map_id]
  · rfl

/-- C6: `apply_uom_lookup` overwrites a record's unit exactly when the
trimmed uppercased item code maps to a non-empty unit in the lookup;
otherwise the existing unit is kept, and no column other than `__UOM__`
is ever modified. -/
theorem claim_C6 (lookup : SMap) (rs : List Row) :
    (apply_uom_lookup lookup rs).length = rs.length ∧
    ∀ i (hi : i < rs.length) (hi2 : i < (apply_uom_lookup lookup rs).length),
      ((apply_uom_lookup lookup rs)[i]).datePosted =
        rs[i].datePosted ∧
      ((apply_uom_lookup lookup rs)[i]).docType =
        rs[i].docType ∧
      ((apply_uom_lookup lookup rs)[i]).docNo =
        rs[i].docNo ∧
      ((apply_uom_lookup lookup rs)[i]).itemNo =
        rs[i].itemNo ∧
      ((apply_uom_lookup lookup rs)[i]).sourceNo =
        rs[i].sourceNo ∧
      ((apply_uom_lookup lookup rs)[i]).name =
        rs[i].name ∧
      ((apply_uom_lookup lookup rs)[i]).lotNo =
        rs[i].lotNo ∧
      ((apply_uom_lookup lookup rs)[i]).expiry =
        rs[i].expiry ∧
      ((apply_uom_lookup lookup rs)[i]).qty =
        rs[i].qty ∧
      ((∃ u, dGet lookup (normCode rs[i].itemNo) = some u ∧ u ≠ "" ∧
          ((apply_uom_lookup lookup rs)[i]).uom = u) ∨
        (((apply_uom_lookup lookup rs)[i]).uom =
            rs[i].uom ∧
          ∀ u, dGet lookup (normCode rs[i].itemNo) = some u → u = "")) := by
  refine ⟨apply_uom_length lookup rs, ?_⟩
  intro i hi hi2
  have hg : (apply_uom_lookup lookup rs)[i] =
      (match dGet lookup (normCode rs[i].itemNo) with
       | some u => if u ≠ "" then { rs[i] with uom := u } else rs[i]
       | none => rs[i]) := by
    rw [List.getElem_of_eq (apply_uom_pointwise lookup rs) hi2, List.getElem_map]
  rcases hd : dGet lookup (normCode rs[i].itemNo) with _ | u
  · rw [hd] at hg
    rw [hg]
    refine ⟨rfl, rfl, rfl, rfl, rfl, rfl, rfl, rfl, rfl, Or.inr ⟨rfl, ?_⟩⟩
    intro u hu
    cases hu
  · rw [hd] at hg
    have hg2 : (apply_uom_lookup lookup rs)[i] =
        if u ≠ "" then { rs[i] with uom := u } else rs[i] := hg
    by_cases hu : u = ""
    · rw [if_neg (fun hne => hne hu)] at hg2
      rw [hg2]
      refine ⟨rfl, rfl, rfl, rfl, rfl, rfl, rfl, rfl, rfl, Or.inr ⟨rfl, ?_⟩⟩
      intro u' hu'
      injection hu' with h
      rw [← h]
      exact hu
    · rw [if_pos hu] at hg2
      rw [hg2]
      exact ⟨rfl, rfl, rfl, rfl, rfl, rfl, rfl, rfl, rfl, Or.inl ⟨u, rfl, hu, rfl⟩⟩

theorem claim_C6_witness :
    ((apply_uom_lookup wLookup [wRow1]).get ⟨0, by rw [apply_uom_length]; decide⟩).qty =
      wRow1.qty :=
  (((claim_C6 wLookup [wRow1]).2 0 (by decide)
    (by rw [apply_uom_length]; decide)).2.2.2.2.2.2.2.2).1

/-- C7: a report row whose item code case-insensitively equals the
sentinel `z00155` always renders the literal "nie dotyczy" (italicised in
the PDF) in place of the expiry, regardless of the parsed expiry value;
any other row renders `DD.MM.YYYY`, or the empty string when the expiry
is absent. -/
theorem claim_C7 (r : ReportRow) :
    (lowerStr r.item_no = sentinelCode →
      pdf_expiry_cell r = "<i>nie dotyczy</i>" ∧ preview_expiry_cell r = "nie dotyczy") ∧
    (lowerStr r.item_no ≠ sentinelCode →
      (∀ d, r.expiry = some d →
        pdf_expiry_cell r = pad2 d.d ++ "." ++ pad2 d.m ++ "." ++ pad4 d.y ∧
        preview_expiry_cell r = pdf_expiry_cell r) ∧
      (r.expiry = none → pdf_expiry_cell r = "" ∧ preview_expiry_cell r = "")) := by
  constructor
  · intro h
    unfold pdf_expiry_cell preview_expiry_cell
    rw [if_pos h, if_pos h]
    exact ⟨rfl, rfl⟩
  · intro h
    constructor
    · intro d hd
      unfold pdf_expiry_cell preview_expiry_cell
      rw [if_neg h, if_neg h, hd]
      exact ⟨rfl, rfl⟩
    · intro hd
      unfold pdf_expiry_cell preview_expiry_cell
      rw [if_neg h, if_neg h, hd]
      exact ⟨rfl, rfl⟩

theorem claim_C7_witness :
    pdf_expiry_cell wRep = "<i>nie dotyczy</i>" ∧ preview_expiry_cell wRep = "nie dotyczy" :=
  (claim_C7 wRep).1 (by decide)

/-- C3 counterexample: on `"2,4.5"` the comma is followed by the three
characters `4.5`, which are not three digits.  The claim says the comma is
then treated as a decimal point, yielding `"2.4.5"` and hence `0`; the
code removes it as a thousands separator and returns `24.5`. -/
theorem claim_C3_counterexample :
    to_float "2,4.5" = 49 / 2 ∧ to_float_claimed "2,4.5" = 0 ∧
      to_float "2,4.5" ≠ to_float_claimed "2,4.5" := by
  have h1 : to_float "2,4.5" = 49 / 2 := by
    rw [show to_float "2,4.5" = repVal ⟨false, 24, 5, 1, 0⟩ from rfl, repVal_frac]
    norm_num
  have h2 : to_float_claimed "2,4.5" = 0 := by
    rw [show to_float_claimed "2,4.5" = 0 from rfl]
  refine ⟨h1, h2, ?_⟩
  rw [h1, h2]
  norm_num

/-- C3 (amended): `to_float` never fails; after cleaning the cell it
returns any direct `float` parse; otherwise, when a comma is present, it
removes the comma exactly when the string splits at the comma into two
parts with exactly three characters (not necessarily digits) after it,
else turns the comma into a decimal point; when everything fails the
result is `0`.  In particular `"2,5"` parses to `2.5` and `"2,000"` to
`2000`. -/
theorem claim_C3 :
    (∀ v : String,
      (∀ x, parseFloatL (cleanQty v) = some x → to_float v = x) ∧
      (parseFloatL (cleanQty v) = none → (cleanQty v).contains ',' = true →
        (commaThousandsB (cleanQty v) = true →
          to_float v = (parseFloatL (removeCh ',' (cleanQty v))).getD 0) ∧
        (commaThousandsB (cleanQty v) = false →
          to_float v = (parseFloatL (replaceCh ',' '.' (cleanQty v))).getD 0)) ∧
      (parseFloatL (cleanQty v) = none → (cleanQty v).contains ',' = false →
        to_float v = 0)) ∧
    to_float "2,5" = 5 / 2 ∧ to_float "2,000" = 2000 ∧ to_float "2,4.5" = 49 / 2 := by
  have hbase : ∀ v : String, parseFloatL (cleanQty v) = none →
      to_float v = to_float_retry (cleanQty v) := by
    intro v h
    unfold to_float
    rw [h]
  refine ⟨?_, ?_, ?_, ?_⟩
  · intro v
    refine ⟨?_, ?_, ?_⟩
    · intro x hx
      unfold to_float
      rw [hx]
    · intro h hc
      constructor
      · intro hct
        rw [hbase v h]
        unfold to_float_retry
        rw [hc, hct]
        simp only [if_true]
      · intro hct
        rw [hbase v h]
        unfold to_float_retry
        rw [hc, hct]
        simp only [Bool.false_eq_true, if_false]
        exact if_pos trivial
    · intro h hc
      rw [hbase v h]
      unfold to_float_retry
      rw [hc, h]
      rfl
  · rw [show to_float "2,5" = repVal ⟨false, 2, 5, 1, 0⟩ from rfl, repVal_frac]
    norm_num
  · rw [show to_float "2,000" = repVal ⟨false, 2000, 0, 0, 0⟩ from rfl, repVal_whole]
    norm_num
  · rw [show to_float "2,4.5" = repVal ⟨false, 24, 5, 1, 0⟩ from rfl, repVal_frac]
    norm_num

theorem claim_C3_witness : to_float "abc" = 0 :=
  ((claim_C3.1 "abc").2.2) (by decide) (by decide)

/-! ### Character-list utility lemmas for the formatter round trips -/

theorem replaceCh_id (a b : Char) (l : List Char) (h : ∀ c ∈ l, (c == a) = false) :
    replaceCh a b l = l := by
  unfold replaceCh
  have hid : ∀ c ∈ l, (if c == a then b else c) = id c := by
    intro c hc
    rw [h c hc]
    rfl
  rw [List.map_congr_left hid, List.map_id]

theorem removeCh_id (a : Char) (l : List Char) (h : ∀ c ∈ l, (c == a) = false) :
    removeCh a l = l := by
  unfold removeCh
  rw [List.filter_eq_self.mpr]
  intro c hc
  rw [bne, h c hc]
  rfl

theorem removeCh_append (a : Char) (l₁ l₂ : List Char) :
    removeCh a (l₁ ++ l₂) = removeCh a l₁ ++ removeCh a l₂ := List.filter_append _ _

theorem replaceCh_append (a b : Char) (l₁ l₂ : List Char) :
    replaceCh a b (l₁ ++ l₂) = replaceCh a b l₁ ++ replaceCh a b l₂ := List.map_append _ _ _

theorem removeCh_reverse (a : Char) (l : List Char) :
    removeCh a l.reverse = (removeCh a l).reverse := by
  unfold removeCh
  rw [List.filter_reverse]

theorem removeCh_replaceCh (a b : Char) (l : List Char) (hb : ∀ c ∈ l, (c == b) = false) :
    removeCh b (replaceCh a b l) = removeCh a l := by
  induction l with
  | nil => rfl
  | cons c t ih =>
    have hcb := hb c (List.mem_cons_self c t)
    have iht := ih fun x hx => hb x (List.mem_cons_of_mem _ hx)
    have hstep : replaceCh a b (c :: t) = (if c == a then b else c) :: replaceCh a b t := rfl
    rw [hstep]
    by_cases hca : (c == a) = true
    · rw [hca]
      simp only [if_true]
      have h1 : removeCh b (b :: replaceCh a b t) = removeCh b (replaceCh a b t) := by
        unfold removeCh
        rw [List.filter_cons]
        simp
      have h2 : removeCh a (c :: t) = removeCh a t := by
        unfold removeCh
        rw [List.filter_cons]
        have hf : (c != a) = false := by rw [bne, hca]; rfl
        rw [hf]
        simp
      rw [h1, h2, iht]
    · rw [Bool.not_eq_true] at hca
      rw [hca]
      simp only [Bool.false_eq_true, if_false]
      have h1 : removeCh b (c :: replaceCh a b t) = c :: removeCh b (replaceCh a b t) := by
        unfold removeCh
        rw [List.filter_cons]
        have hf : (c != b) = true := by rw [bne, hcb]; rfl
        rw [hf]
        simp
      have h2 : removeCh a (c :: t) = c :: removeCh a t := by
        unfold removeCh
        rw [List.filter_cons]
        have hf : (c != a) = true := by rw [bne, hca]; rfl
        rw [hf]
        simp
      rw [h1, h2, iht]

theorem contains_of_mem (l : List Char) (c : Char) (h : c ∈ l) : l.contains c = true := by
  simpa using h

theorem not_contains_of_all (l : List Char) (c : Char) (h : ∀ x ∈ l, (x == c) = false) :
    l.contains c = false := by
  have hnm : c ∉ l := by
    intro hm
    have := h c hm
    rw [beq_self_eq_true] at this
    cases this
  simpa using hnm

theorem splitComma_no_comma (l : List Char) (h : ∀ c ∈ l, (c == ',') = false) :
    splitComma l = [l] := by
  induction l with
  | nil => rfl
  | cons c t ih =>
    show (if c == ',' then [] :: splitComma t
      else match splitComma t with | [] => [[c]] | h :: r => (c :: h) :: r) = [c :: t]
    rw [h c (List.mem_cons_self c t)]
    simp only [Bool.false_eq_true, if_false]
    rw [ih fun x hx => h x (List.mem_cons_of_mem _ hx)]

theorem splitComma_append (l₁ l₂ : List Char) (h : ∀ c ∈ l₁, (c == ',') = false) :
    splitComma (l₁ ++ ',' :: l₂) = l₁ :: splitComma l₂ := by
  induction l₁ with
  | nil =>
    show (if (',' == ',') then [] :: splitComma l₂ else _) = [] :: splitComma l₂
    rw [beq_self_eq_true]
    rfl
  | cons c t ih =>
    show (if c == ',' then [] :: splitComma (t ++ ',' :: l₂)
      else match splitComma (t ++ ',' :: l₂) with
        | [] => [[c]] | h :: r => (c :: h) :: r) = (c :: t) :: splitComma l₂
    rw [h c (List.mem_cons_self c t), ih fun x hx => h x (List.mem_cons_of_mem _ hx)]
    rfl

theorem group3LE_short (l : List Char) (h : l.length ≤ 3) : group3LE l = l := by
  match l with
  | [] => rfl
  | [a] => rfl
  | [a, b] => rfl
  | [a, b, c] => rfl
  | a :: b :: c :: d :: t => simp at h

theorem group3LE_chars_aux :
    ∀ (N : ℕ) (l : List Char), l.length ≤ N → ∀ x ∈ group3LE l, x ∈ l ∨ x = ',' := by
  intro N
  induction N with
  | zero =>
    intro l hl x hx
    rw [List.length_eq_zero.mp (Nat.le_zero.mp hl)] at hx ⊢
    simp [group3LE] at hx
  | succ N ih =>
    intro l hl x hx
    match l with
    | [] => simp [group3LE] at hx
    | [a] => simp only [group3LE] at hx; exact Or.inl hx
    | [a, b] => simp only [group3LE] at hx; exact Or.inl hx
    | [a, b, c] => simp only [group3LE] at hx; exact Or.inl hx
    | a :: b :: c :: d :: t =>
      rw [show group3LE (a :: b :: c :: d :: t) =
        a :: b :: c :: ',' :: group3LE (d :: t) from rfl] at hx
      rcases List.mem_cons.mp hx with rfl | hx
      · exact Or.inl (by simp)
      rcases List.mem_cons.mp hx with rfl | hx
      · exact Or.inl (by simp)
      rcases List.mem_cons.mp hx with rfl | hx
      · exact Or.inl (by simp)
      rcases List.mem_cons.mp hx with rfl | hx
      · exact Or.inr rfl
      · have hlen : (d :: t).length ≤ N := by
          simp only [List.length_cons] at hl ⊢
          omega
        rcases ih (d :: t) hlen x hx with h | h
        · exact Or.inl (List.mem_cons_of_mem a (List.mem_cons_of_mem b (List.mem_cons_of_mem c h)))
        · exact Or.inr h

theorem group3LE_chars (l : List Char) : ∀ x ∈ group3LE l, x ∈ l ∨ x = ',' :=
  group3LE_chars_aux l.length l le_rfl

theorem removeCh_group3LE_aux :
    ∀ (N : ℕ) (l : List Char), l.length ≤ N →
      removeCh ',' (group3LE l) = removeCh ',' l := by
  intro N
  induction N with
  | zero =>
    intro l hl
    rw [List.length_eq_zero.mp (Nat.le_zero.mp hl)]
    rfl
  | succ N ih =>
    intro l hl
    match l with
    | [] => rfl
    | [a] => rfl
    | [a, b] => rfl
    | [a, b, c] => rfl
    | a :: b :: c :: d :: t =>
      rw [show group3LE (a :: b :: c :: d :: t) =
        a :: b :: c :: ',' :: group3LE (d :: t) from rfl]
      have hlen : (d :: t).length ≤ N := by
        simp only [List.length_cons] at hl ⊢
        omega
      show removeCh ',' ([a, b, c] ++ ',' :: group3LE (d :: t)) =
        removeCh ',' ([a, b, c] ++ d :: t)
      rw [removeCh_append, removeCh_append]
      congr 1
      show List.filter _ (',' :: _) = _
      rw [List.filter_cons]
      simp only [bne_self_eq_false, Bool.false_eq_true, if_false]
      exact ih (d :: t) hlen

theorem removeCh_group3LE (l : List Char) :
    removeCh ',' (group3LE l) = removeCh ',' l :=
  removeCh_group3LE_aux l.length l le_rfl

theorem natDigs_no_comma (n : ℕ) : ∀ c ∈ natDigs n, (c == ',') = false :=
  fun c hc => digit_bne c ',' (natDigs_digits n c hc) (by decide)

theorem removeComma_groupDigits (n : ℕ) : removeCh ',' (groupDigits n) = natDigs n := by
  unfold groupDigits
  rw [removeCh_reverse, removeCh_group3LE, removeCh_reverse, List.reverse_reverse,
    removeCh_id ',' (natDigs n) (natDigs_no_comma n)]

theorem groupDigits_chars (n : ℕ) :
    ∀ x ∈ groupDigits n, isDigitB x = true ∨ x = ',' := by
  intro x hx
  unfold groupDigits at hx
  rw [List.mem_reverse] at hx
  rcases group3LE_chars _ x hx with h | h
  · rw [List.mem_reverse] at h
    exact Or.inl (natDigs_digits n x h)
  · exact Or.inr h

theorem groupDigits_short (n : ℕ) (h : n < 1000) : groupDigits n = natDigs n := by
  unfold groupDigits
  rw [group3LE_short _ (by
      rw [List.length_reverse]
      exact natDigs_length_le n 3 (by norm_num)
        (by rw [show (10:ℕ) ^ 3 = 1000 from by norm_num]; exact h)),
    List.reverse_reverse]

theorem pad3_digits (f : ℕ) : ∀ c ∈ pad3 f, isDigitB c = true := by
  intro c hc
  unfold pad3 at hc
  rcases List.mem_cons.mp hc with rfl | hc
  · exact isDigitB_digChar _ (Nat.mod_lt _ (by norm_num))
  rcases List.mem_cons.mp hc with rfl | hc
  · exact isDigitB_digChar _ (Nat.mod_lt _ (by norm_num))
  rcases List.mem_cons.mp hc with rfl | hc
  · exact isDigitB_digChar _ (Nat.mod_lt _ (by norm_num))
  · simp at hc

theorem digsVal_single (c : Char) : digsVal [c] = charVal c := by
  show 10 * 0 + charVal c = charVal c
  omega

theorem digsVal_pair (c d : Char) : digsVal [c, d] = 10 * charVal c + charVal d := by
  show 10 * (10 * 0 + charVal c) + charVal d = _
  omega

theorem digsVal_triple (c d e : Char) :
    digsVal [c, d, e] = 100 * charVal c + 10 * charVal d + charVal e := by
  show 10 * (10 * (10 * 0 + charVal c) + charVal d) + charVal e = _
  omega

/-- Stripping the trailing zeros of the three zero-padded fractional
digits of `0 < f < 1000`: the result `t` is a nonempty digit string with
`digsVal t * 10 ^ k = f` and `t.length + k = 3`; when `f` ends in `0` at
least one zero is stripped. -/
theorem rstrip0_pad3 (f : ℕ) (h1 : 0 < f) (h2 : f < 1000) :
    ∃ t k, rstrip0 (pad3 f) = t ∧ t ≠ [] ∧ (∀ c ∈ t, isDigitB c = true) ∧
      t.length + k = 3 ∧ digsVal t * 10 ^ k = f ∧ (f % 10 = 0 → 1 ≤ k) := by
  have hlt0 : f % 10 < 10 := Nat.mod_lt _ (by norm_num)
  have hlt1 : f / 10 % 10 < 10 := Nat.mod_lt _ (by norm_num)
  have hlt2 : f / 100 % 10 < 10 := Nat.mod_lt _ (by norm_num)
  have hb : ∀ d : ℕ, d < 10 → (digChar d == '0') = decide (d = 0) := by
    intro d hd
    interval_cases d <;> decide
  have hrev : (pad3 f).reverse =
      [digChar (f % 10), digChar (f / 10 % 10), digChar (f / 100 % 10)] := rfl
  by_cases h0 : f % 10 = 0
  · have e0 : (digChar (f % 10) == '0') = true := by
      rw [hb _ hlt0]
      simp [h0]
    by_cases hone : f / 10 % 10 = 0
    · have h2' : f / 100 % 10 ≠ 0 := by omega
      have e1 : (digChar (f / 10 % 10) == '0') = true := by
        rw [hb _ hlt1]
        simp [hone]
      have e2 : (digChar (f / 100 % 10) == '0') = false := by
        rw [hb _ hlt2]
        simp [h2']
      refine ⟨[digChar (f / 100 % 10)], 2, ?_, by simp, ?_, by simp, ?_, fun _ => by omega⟩
      · unfold rstrip0
        rw [hrev, List.dropWhile_cons, e0]
        simp only [if_true]
        rw [List.dropWhile_cons, e1]
        simp only [if_true]
        rw [List.dropWhile_cons, e2]
        simp only [Bool.false_eq_true, if_false]
        rfl
      · intro c hc
        rcases List.mem_cons.mp hc with rfl | hc
        · exact isDigitB_digChar _ hlt2
        · simp at hc
      · rw [digsVal_single, charVal_digChar _ hlt2]
        omega
    · have e1 : (digChar (f / 10 % 10) == '0') = false := by
        rw [hb _ hlt1]
        simp [hone]
      refine ⟨[digChar (f / 100 % 10), digChar (f / 10 % 10)], 1, ?_, by simp, ?_,
        by simp, ?_, fun _ => by omega⟩
      · unfold rstrip0
        rw [hrev, List.dropWhile_cons, e0]
        simp only [if_true]
        rw [List.dropWhile_cons, e1]
        simp only [Bool.false_eq_true, if_false]
        rfl
      · intro c hc
        rcases List.mem_cons.mp hc with rfl | hc
        · exact isDigitB_digChar _ hlt2
        rcases List.mem_cons.mp hc with rfl | hc
        · exact isDigitB_digChar _ hlt1
        · simp at hc
      · rw [digsVal_pair, charVal_digChar _ hlt2, charVal_digChar _ hlt1]
        simp only [pow_one]
        omega
  · have e0 : (digChar (f % 10) == '0') = false := by
      rw [hb _ hlt0]
      simp [h0]
    refine ⟨pad3 f, 0, ?_, by simp [pad3], pad3_digits f, by simp [pad3], ?_,
      fun hz => absurd hz h0⟩
    · unfold rstrip0
      rw [hrev, List.dropWhile_cons, e0]
      simp only [Bool.false_eq_true, if_false]
      rfl
    · rw [show pad3 f = [digChar (f / 100 % 10), digChar (f / 10 % 10), digChar (f % 10)]
        from rfl, digsVal_triple, charVal_digChar _ hlt2, charVal_digChar _ hlt1,
        charVal_digChar _ hlt0]
      simp only [pow_zero, mul_one]
      omega

/-- `rstrip('0')` of `X.P` only strips inside the fractional part when
that part does not strip to nothing. -/
theorem rstrip0_long (X P t : List Char) (hP : rstrip0 P = t) (hne : t ≠ []) :
    rstrip0 (X ++ '.' :: P) = X ++ '.' :: t := by
  unfold rstrip0 at hP ⊢
  have hnonempty : P.reverse.dropWhile (fun c => c == '0') ≠ [] := by
    intro h
    apply hne
    rw [← hP, h]
    rfl
  have hrw : (X ++ '.' :: P).reverse = P.reverse ++ '.' :: X.reverse := by
    rw [List.reverse_append, List.reverse_cons]
    simp
  rw [hrw, List.dropWhile_append]
  rw [if_neg (by simpa using hnonempty)]
  rw [List.reverse_append, List.reverse_cons]
  rw [← hP]
  simp

theorem rstripDot_digits_end (X t : List Char) (hne : t ≠ []) (hd : ∀ c ∈ t, isDigitB c = true) :
    rstripDot (X ++ '.' :: t) = X ++ '.' :: t := by
  unfold rstripDot
  rcases hrev : t.reverse with _ | ⟨c, r⟩
  · exact absurd (List.reverse_eq_nil_iff.mp hrev) hne
  · have hc : c ∈ t := by
      rw [← List.mem_reverse, hrev]
      simp
    have hcd : (c == '.') = false := digit_bne c '.' (hd c hc) (by decide)
    have hrw : (X ++ '.' :: t).reverse = c :: (r ++ '.' :: X.reverse) := by
      rw [List.reverse_append, List.reverse_cons, hrev]
      simp
    rw [hrw, List.dropWhile_cons, hcd]
    simp only [Bool.false_eq_true, if_false]
    rw [← hrw, List.reverse_reverse]

/-! ### Rounding and formatting lemmas -/

theorem pyRound_int (z : ℤ) : pyRound (z : ℚ) = z := by
  unfold pyRound
  rw [Int.floor_intCast]
  rw [if_pos]
  rw [sub_self]
  norm_num

theorem pyRound_natCast (n : ℕ) : pyRound (n : ℚ) = (n : ℤ) := by
  rw [show ((n : ℚ)) = ((n : ℤ) : ℚ) by push_cast; ring, pyRound_int]

/-- A rational `n / M` with `M ∤ n` is at distance at least `1 / M` from
every integer. -/
theorem dist_int_ge (n i : ℤ) (M : ℕ) (hM : 0 < M) (hnd : ¬((M : ℤ) ∣ n)) :
    (1 : ℚ) / M ≤ |(n : ℚ) / M - i| := by
  have hM0 : (M : ℚ) ≠ 0 := by positivity
  have heq : (n : ℚ) / M - i = ((n - M * i : ℤ) : ℚ) / M := by
    push_cast
    field_simp
  rw [heq, abs_div, abs_of_pos (by positivity : (0:ℚ) < (M:ℚ))]
  apply div_le_div_of_nonneg_right _ (by positivity)
  · have hne : n - M * i ≠ 0 := by
      intro h
      apply hnd
      exact ⟨i, by omega⟩
    have : (1 : ℤ) ≤ |n - M * i| := by
      rcases abs_pos.mpr hne with h
      omega
    calc (1 : ℚ) = ((1 : ℤ) : ℚ) := by norm_num
    _ ≤ |((n - M * i : ℤ) : ℚ)| := by
        rw [← Int.cast_abs]
        exact_mod_cast this

theorem polish_digits (l : List Char) (h : ∀ c ∈ l, isDigitB c = true) :
    polishSubst l = l := by
  unfold polishSubst
  rw [replaceCh_id ',' '_' l (fun c hc => digit_bne c ',' (h c hc) (by decide)),
    replaceCh_id '.' ',' l (fun c hc => digit_bne c '.' (h c hc) (by decide)),
    replaceCh_id '_' ' ' l (fun c hc => digit_bne c '_' (h c hc) (by decide))]

/-- `f"{k:,}"` for `k < 1000` is just the digits of `k`, and the locale
substitution leaves it unchanged. -/
theorem format_int_small (k : ℕ) (hk : k < 1000) :
    format_qty_pl (k : ℚ) = ⟨natDigs k⟩ := by
  unfold format_qty_pl
  rw [pyRound_natCast k]
  rw [if_pos (by
    rw [show (((k : ℤ) : ℚ)) = ((k : ℚ)) by push_cast; ring, sub_self, abs_zero]
    norm_num)]
  unfold intGroup
  rw [if_neg (by omega)]
  rw [Int.natAbs_ofNat, List.nil_append, groupDigits_short k hk,
    polish_digits _ (natDigs_digits k)]

theorem polishSubst_append (l₁ l₂ : List Char) :
    polishSubst (l₁ ++ l₂) = polishSubst l₁ ++ polishSubst l₂ := by
  unfold polishSubst
  rw [replaceCh_append, replaceCh_append, replaceCh_append]

/-- On a string of digits and grouping commas the locale substitution is
exactly "comma becomes narrow no-break space". -/
theorem polish_digits_commas (l : List Char) (hl : ∀ c ∈ l, isDigitB c = true ∨ c = ',') :
    polishSubst l = replaceCh ',' ' ' l := by
  unfold polishSubst
  induction l with
  | nil => rfl
  | cons c t ih =>
    have hc := hl c (List.mem_cons_self c t)
    have iht := ih fun x hx => hl x (List.mem_cons_of_mem _ hx)
    rcases hc with hd | rfl
    · have b1 : (c == ',') = false := digit_bne c ',' hd (by decide)
      have b2 : (c == '.') = false := digit_bne c '.' hd (by decide)
      have b3 : (c == '_') = false := digit_bne c '_' hd (by decide)
      show replaceCh '_' ' ' (replaceCh '.' ','
        ((if c == ',' then '_' else c) :: replaceCh ',' '_' t)) =
        (if c == ',' then ' ' else c) :: replaceCh ',' ' ' t
      rw [b1]
      simp only [Bool.false_eq_true, if_false]
      show replaceCh '_' ' '
        ((if c == '.' then ',' else c) :: replaceCh '.' ',' (replaceCh ',' '_' t)) = _
      rw [b2]
      simp only [Bool.false_eq_true, if_false]
      show (if c == '_' then ' ' else c) ::
        replaceCh '_' ' ' (replaceCh '.' ',' (replaceCh ',' '_' t)) = _
      rw [b3]
      simp only [Bool.false_eq_true, if_false]
      rw [iht]
    · show replaceCh '_' ' ' (replaceCh '.' ','
        ((if ',' == ',' then '_' else ',') :: replaceCh ',' '_' t)) =
        (if ',' == ',' then ' ' else ',') :: replaceCh ',' ' ' t
      rw [show ((',' == ',')) = true from rfl]
      simp only [if_true]
      show replaceCh '_' ' '
        ((if '_' == '.' then ',' else '_') :: replaceCh '.' ',' (replaceCh ',' '_' t)) = _
      rw [show (('_' == '.')) = false from rfl]
      simp only [Bool.false_eq_true, if_false]
      show (if '_' == '_' then ' ' else '_') ::
        replaceCh '_' ' ' (replaceCh '.' ',' (replaceCh ',' '_' t)) = _
      rw [show (('_' == '_')) = true from rfl]
      simp only [if_true]
      rw [iht]

/-- The locale substitution turns the decimal point into a comma and
leaves the fractional digits alone. -/
theorem polish_dot_digits (t : List Char) (ht : ∀ c ∈ t, isDigitB c = true) :
    polishSubst ('.' :: t) = ',' :: t := by
  unfold polishSubst
  show replaceCh '_' ' ' (replaceCh '.' ','
    ((if '.' == ',' then '_' else '.') :: replaceCh ',' '_' t)) = _
  rw [show (('.' == ',')) = false from rfl]
  simp only [Bool.false_eq_true, if_false]
  rw [replaceCh_id ',' '_' t (fun c hc => digit_bne c ',' (ht c hc) (by decide))]
  show replaceCh '_' ' ' ((if '.' == '.' then ',' else '.') :: replaceCh '.' ',' t) = _
  rw [show (('.' == '.')) = true from rfl]
  simp only [if_true]
  rw [replaceCh_id '.' ',' t (fun c hc => digit_bne c '.' (ht c hc) (by decide))]
  show (if ',' == '_' then ' ' else ',') :: replaceCh '_' ' ' t = _
  rw [show ((',' == '_')) = false from rfl]
  simp only [Bool.false_eq_true, if_false]
  rw [replaceCh_id '_' ' ' t (fun c hc => digit_bne c '_' (ht c hc) (by decide))]

/-- `_format_qty_pl` on any natural `k`: the grouped digits with the
grouping commas turned into narrow no-break spaces. -/
theorem format_int_any (k : ℕ) :
    format_qty_pl (k : ℚ) = ⟨replaceCh ',' ' ' (groupDigits k)⟩ := by
  unfold format_qty_pl
  rw [pyRound_natCast k]
  rw [if_pos (by
    rw [show (((k : ℤ) : ℚ)) = ((k : ℚ)) by push_cast; ring, sub_self, abs_zero]
    norm_num)]
  unfold intGroup
  rw [if_neg (by omega)]
  rw [Int.natAbs_ofNat, List.nil_append, polish_digits_commas _ (groupDigits_chars k)]

/-- `_format_qty_pl` on a non-integer multiple of `1/1000`: the fixed
three-decimal rendering with trailing zeros (and a trailing point)
stripped, then the locale substitution. -/
theorem format_frac (n : ℕ) (hnd : ¬(1000 ∣ n)) :
    format_qty_pl ((n : ℚ) / 1000) =
      ⟨polishSubst (rstripDot (rstrip0 (groupDigits (n / 1000) ++ '.' :: pad3 (n % 1000))))⟩ := by
  have hq : (1000 : ℚ) * ((n : ℚ) / 1000) = (n : ℚ) := by field_simp
  have hznd : ¬((1000 : ℤ) ∣ (n : ℤ)) := by
    intro hd
    exact hnd (by exact_mod_cast hd)
  have hfar : ∀ i : ℤ, ¬(|(n : ℚ) / 1000 - i| < 1 / 1000000000) := by
    intro i hlt
    have hge := dist_int_ge (n : ℤ) i 1000 (by norm_num) hznd
    rw [show (((n : ℤ) : ℚ)) = ((n : ℚ)) by push_cast; ring] at hge
    have : ((1000 : ℕ) : ℚ) = (1000 : ℚ) := by norm_num
    rw [this] at hge
    linarith
  unfold format_qty_pl
  rw [if_neg (hfar (pyRound ((n : ℚ) / 1000)))]
  congr 1
  congr 1
  unfold formatFixed3
  rw [hq, pyRound_natCast n]
  rw [if_neg (not_lt.mpr (by positivity : (0 : ℚ) ≤ (n : ℚ) / 1000))]
  rw [Int.natAbs_ofNat, List.nil_append]

/-- Cells consisting only of digits, commas and points pass through the
`to_float` cleaning unchanged. -/
theorem cleanQty_of_plain (l : List Char)
    (h : ∀ c ∈ l, isDigitB c = true ∨ c = ',' ∨ c = '.') :
    cleanQty ⟨l⟩ = l := by
  show stripQuotesL (removeCh '\u00A0' (removeCh ' ' (stripWSL l))) = l
  have hsp : ∀ c ∈ l, pyIsSpace c = false := by
    intro c hc
    rcases h c hc with hd | rfl | rfl
    · exact isDigitB_not_space c hd
    · decide
    · decide
  unfold stripWSL
  rw [stripWith_of_none _ _ hsp]
  rw [removeCh_id ' ' l (by
    intro c hc
    rcases h c hc with hd | rfl | rfl
    · exact digit_bne c ' ' hd (by decide)
    · decide
    · decide)]
  rw [removeCh_id '\u00A0' l (by
    intro c hc
    rcases h c hc with hd | rfl | rfl
    · exact digit_bne c '\u00A0' hd (by decide)
    · decide
    · decide)]
  unfold stripQuotesL
  rw [stripWith_of_none _ _ (by
    intro c hc
    rcases h c hc with hd | rfl | rfl
    · exact digit_bne c '"' hd (by decide)
    · decide
    · decide)]

/-- Parsing `digits.digits` where the fractional digit string `t`
satisfies `digsVal t * 10 ^ k = f` and `t.length + k = 3` yields exactly
`a + f / 1000`. -/
theorem parse_dot_val (a f k : ℕ) (t : List Char) (ht : t ≠ [])
    (hd : ∀ c ∈ t, isDigitB c = true) (hlen : t.length + k = 3)
    (hval : digsVal t * 10 ^ k = f) :
    parseFloatL (natDigs a ++ '.' :: t) = some ((a : ℚ) + (f : ℚ) / 1000) := by
  rw [parseFloatL_point (natDigs a) t (natDigs_ne_nil a) (natDigs_digits a) hd,
    digsVal_natDigs]
  congr 1
  have hf : (f : ℚ) = (digsVal t : ℚ) * 10 ^ k := by exact_mod_cast hval.symm
  rw [hf, show ((1000 : ℚ)) = 10 ^ t.length * 10 ^ k by
    rw [← pow_add, hlen]
    norm_num]
  have hK : ((10 : ℚ) ^ k) ≠ 0 := by positivity
  rw [mul_comm ((10 : ℚ) ^ t.length) ((10 : ℚ) ^ k), ← div_div,
    mul_div_assoc, div_self hK, mul_one]

theorem to_float_of_some (v : String) (x : ℚ) (hx : parseFloatL (cleanQty v) = some x) :
    to_float v = x := by
  unfold to_float
  rw [hx]

theorem to_float_of_none (v : String) (h : parseFloatL (cleanQty v) = none) :
    to_float v = to_float_retry (cleanQty v) := by
  unfold to_float
  rw [h]

theorem to_float_retry_dec (s : List Char) (hc : s.contains ',' = true)
    (hct : commaThousandsB s = false) :
    to_float_retry s = (parseFloatL (replaceCh ',' '.' s)).getD 0 := by
  unfold to_float_retry
  rw [hc, hct]
  simp only [Bool.false_eq_true, if_false]
  exact if_pos trivial

theorem to_float_retry_thousands (s : List Char) (hc : s.contains ',' = true)
    (hct : commaThousandsB s = true) :
    to_float_retry s = (parseFloatL (removeCh ',' s)).getD 0 := by
  unfold to_float_retry
  rw [hc, hct]
  simp only [if_true]

/-- C4 (amended): the format/parse round trip holds exactly for every
non-negative quantity below `1000` with at most two fractional digits
(`x = n / 100`, `n < 100000`): such values render without a thousands
separator and with at most two fractional digits, and `to_float` inverts
the rendering, so re-formatting reproduces the same display string. -/
theorem claim_C4 (n : ℕ) (hn : n < 100000) :
    to_float (format_qty_pl ((n : ℚ) / 100)) = (n : ℚ) / 100 ∧
    format_qty_pl (to_float (format_qty_pl ((n : ℚ) / 100))) = format_qty_pl ((n : ℚ) / 100) := by
  have main : to_float (format_qty_pl ((n : ℚ) / 100)) = (n : ℚ) / 100 := by
    by_cases hdvd : 100 ∣ n
    · obtain ⟨k, rfl⟩ := hdvd
      have hk : k < 1000 := by omega
      have hcast : ((100 * k : ℕ) : ℚ) / 100 = (k : ℚ) := by
        push_cast
        field_simp
      rw [hcast, format_int_small k hk]
      have hclean : cleanQty ⟨natDigs k⟩ = natDigs k :=
        cleanQty_of_plain _ fun c hc => Or.inl (natDigs_digits k c hc)
      exact to_float_of_some _ _ (by rw [hclean]; exact parseFloatL_natDigs k)
    · have h100 : n % 100 ≠ 0 := fun h => hdvd (Nat.dvd_of_mod_eq_zero h)
      have hnd : ¬(1000 ∣ 10 * n) := by
        rintro ⟨c, hc⟩
        exact hdvd ⟨c, by omega⟩
      have hcast : (n : ℚ) / 100 = ((10 * n : ℕ) : ℚ) / 1000 := by
        push_cast
        rw [div_eq_div_iff (by norm_num) (by norm_num)]
        ring
      have ha : 10 * n / 1000 = n / 100 := by omega
      have hf : (10 * n) % 1000 = 10 * (n % 100) := by omega
      rw [hcast, format_frac (10 * n) hnd, ha, hf]
      have hasmall : n / 100 < 1000 := by omega
      rw [groupDigits_short _ hasmall]
      obtain ⟨t, k, hst, htne, htd, hlen, hval, hk1⟩ :=
        rstrip0_pad3 (10 * (n % 100)) (by omega) (by omega)
      have hkge : 1 ≤ k := hk1 (by omega)
      rw [rstrip0_long (natDigs (n / 100)) (pad3 (10 * (n % 100))) t hst htne,
        rstripDot_digits_end _ t htne htd]
      have hpol : polishSubst (natDigs (n / 100) ++ '.' :: t) =
          natDigs (n / 100) ++ ',' :: t := by
        rw [polishSubst_append, polish_digits _ (natDigs_digits _), polish_dot_digits t htd]
      rw [hpol]
      have hplain : ∀ c ∈ natDigs (n / 100) ++ ',' :: t,
          isDigitB c = true ∨ c = ',' ∨ c = '.' := by
        intro c hc
        rcases List.mem_append.mp hc with hc | hc
        · exact Or.inl (natDigs_digits _ c hc)
        · rcases List.mem_cons.mp hc with rfl | hc
          · exact Or.inr (Or.inl rfl)
          · exact Or.inl (htd c hc)
      have hclean : cleanQty ⟨natDigs (n / 100) ++ ',' :: t⟩ = natDigs (n / 100) ++ ',' :: t :=
        cleanQty_of_plain _ hplain
      have hnone : parseFloatL (cleanQty ⟨natDigs (n / 100) ++ ',' :: t⟩) = none := by
        rw [hclean]
        exact parseFloatL_comma_none _ (by simp)
      rw [to_float_of_none _ hnone, hclean]
      have hXnc : ∀ c ∈ natDigs (n / 100), (c == ',') = false := natDigs_no_comma _
      have htnc : ∀ c ∈ t, (c == ',') = false :=
        fun c hc => digit_bne c ',' (htd c hc) (by decide)
      have hthree : commaThousandsB (natDigs (n / 100) ++ ',' :: t) = false := by
        unfold commaThousandsB
        have hnm : ∀ c ∈ natDigs (n / 100) ++ ',' :: t, (c == '-') = false := by
          intro c hc
          rcases hplain c hc with hd | rfl | rfl
          · exact digit_bne c '-' hd (by decide)
          · decide
          · decide
        rw [removeCh_id '-' _ hnm, splitComma_append _ t hXnc, splitComma_no_comma t htnc]
        have hlt : t.length ≠ 3 := by omega
        simp [hlt]
      rw [to_float_retry_dec _ (contains_of_mem _ ',' (by simp)) hthree]
      have hrepl : replaceCh ',' '.' (natDigs (n / 100) ++ ',' :: t) =
          natDigs (n / 100) ++ '.' :: t := by
        rw [replaceCh_append, replaceCh_id ',' '.' _ hXnc]
        show _ ++ ((if (',' == ',') then '.' else ',') :: replaceCh ',' '.' t) = _
        rw [show ((',' == ',')) = true from rfl]
        simp only [if_true]
        rw [replaceCh_id ',' '.' t htnc]
      rw [hrepl, parse_dot_val (n / 100) (10 * (n % 100)) k t htne htd hlen hval]
      show ((n / 100 : ℕ) : ℚ) + ((10 * (n % 100) : ℕ) : ℚ) / 1000 = ((10 * n : ℕ) : ℚ) / 1000
      have hmod : ((n : ℚ)) = 100 * ((n / 100 : ℕ) : ℚ) + ((n % 100 : ℕ) : ℚ) := by
        exact_mod_cast (Nat.div_add_mod n 100).symm
      push_cast
      rw [show ((n : ℚ)) = 100 * ((n : ℚ) / 100 - (n % 100 : ℕ) / 100) + ((n % 100 : ℕ) : ℚ)
        from by ring]
      push_cast at hmod
      rw [hmod]
      ring
  exact ⟨main, by rw [main]⟩

theorem claim_C4_witness :
    to_float (format_qty_pl ((250 : ℚ) / 100)) = (250 : ℚ) / 100 :=
  (claim_C4 250 (by norm_num)).1

/-- C4 counterexample: the round trip fails on `x = 2000` (the display
"2\u202F000" carries a narrow no-break space, which `to_float` does not strip,
so the reparse yields `0`) and on `x = 0.457` (the display "0,457" has
exactly three characters after the comma, so the reparse treats the comma
as a thousands separator and yields `457`). -/
theorem claim_C4_counterexample :
    format_qty_pl (2000 : ℚ) = "2\u202F000" ∧
    to_float "2\u202F000" = 0 ∧
    format_qty_pl (to_float (format_qty_pl (2000 : ℚ))) ≠ format_qty_pl (2000 : ℚ) ∧
    format_qty_pl ((457 : ℚ) / 1000) = "0,457" ∧
    to_float "0,457" = 457 ∧
    format_qty_pl (to_float (format_qty_pl ((457 : ℚ) / 1000))) ≠ format_qty_pl ((457 : ℚ) / 1000) := by
  have h0 : format_qty_pl (0 : ℚ) = "0" := by
    rw [show ((0 : ℚ)) = ((0 : ℕ) : ℚ) by norm_num, format_int_any]
    decide
  have h2000 : format_qty_pl (2000 : ℚ) = "2\u202F000" := by
    rw [show ((2000 : ℚ)) = ((2000 : ℕ) : ℚ) by norm_num, format_int_any]
    decide
  have hto2000 : to_float "2\u202F000" = 0 := rfl
  have h457 : format_qty_pl ((457 : ℚ) / 1000) = "0,457" := by
    rw [show ((457 : ℚ) / 1000) = (((457 : ℕ) : ℚ)) / 1000 by norm_num,
      format_frac 457 (by decide)]
    decide
  have hto457 : to_float "0,457" = 457 := by
    rw [show to_float "0,457" = repVal ⟨false, 457, 0, 0, 0⟩ from rfl, repVal_whole]
    norm_num
  have h457i : format_qty_pl (457 : ℚ) = "457" := by
    rw [show ((457 : ℚ)) = ((457 : ℕ) : ℚ) by norm_num, format_int_any]
    decide
  refine ⟨h2000, hto2000, ?_, h457, hto457, ?_⟩
  · rw [h2000, hto2000, h0]
    decide
  · rw [h457, hto457, h457i]
    decide

theorem isEmpty_false_of_ne_nil (l : List Char) (h : l ≠ []) : l.isEmpty = false := by
  cases l with
  | nil => exact absurd rfl h
  | cons c t => rfl

theorem gf_parse_qty_of_some (s : String) (x : ℚ)
    (hx : parseFloatL (stripWSL (replaceCh ',' '.' (removeCh ' ' s.data))) = some x)
    (hne : stripWSL (replaceCh ',' '.' (removeCh ' ' s.data)) ≠ []) :
    gf_parse_qty s = x := by
  show (if (stripWSL (replaceCh ',' '.' (removeCh ' ' s.data))).isEmpty then (0 : ℚ)
    else match parseFloatL (stripWSL (replaceCh ',' '.' (removeCh ' ' s.data))) with
    | some v => v
    | none => 0) = x
  rw [isEmpty_false_of_ne_nil _ hne]
  simp only [Bool.false_eq_true, if_false]
  rw [hx]

/-- Removing the narrow no-break spaces of a polished grouped integer
recovers the plain digits. -/
theorem remove_nbsp_polished (k : ℕ) :
    removeCh ' ' (replaceCh ',' ' ' (groupDigits k)) = natDigs k := by
  rw [removeCh_replaceCh ',' ' ' (groupDigits k) (by
    intro c hc
    rcases groupDigits_chars k c hc with hd | rfl
    · exact digit_bne c ' ' hd (by decide)
    · decide),
    removeComma_groupDigits]

/-- `generate_final` reparses the polished display of a whole number to
that number. -/
theorem gf_roundtrip_int (k : ℕ) :
    gf_parse_qty ⟨replaceCh ',' ' ' (groupDigits k)⟩ = (k : ℚ) := by
  have hdig : ∀ c ∈ natDigs k, isDigitB c = true := natDigs_digits k
  have hrm : removeCh ' '
      (String.data ⟨replaceCh ',' ' ' (groupDigits k)⟩) = natDigs k :=
    remove_nbsp_polished k
  apply gf_parse_qty_of_some
  · rw [hrm, replaceCh_id ',' '.' _ (fun c hc => digit_bne c ',' (hdig c hc) (by decide))]
    show parseFloatL (stripWith pyIsSpace (natDigs k)) = _
    rw [stripWith_of_none _ _ (fun c hc => isDigitB_not_space c (hdig c hc))]
    exact parseFloatL_natDigs k
  · rw [hrm, replaceCh_id ',' '.' _ (fun c hc => digit_bne c ',' (hdig c hc) (by decide))]
    show stripWith pyIsSpace (natDigs k) ≠ []
    rw [stripWith_of_none _ _ (fun c hc => isDigitB_not_space c (hdig c hc))]
    exact natDigs_ne_nil k

/-- C9 (amended): for every nonnegative quantity that is an exact
multiple of `0.001` — in particular every three-decimal value the
formatter can display without rounding — reparsing the
`_format_qty_pl` display with `generate_final`'s rule (strip narrow
no-break spaces, comma to dot, `float`) recovers the quantity exactly.
The original claim's `1e-9` round trip for arbitrary quantities and its
agreement with the §4.1 parser `to_float` both fail
(`claim_C9_counterexample`). -/
theorem claim_C9 (n : ℕ) :
    gf_parse_qty (format_qty_pl ((n : ℚ) / 1000)) = (n : ℚ) / 1000 := by
  by_cases hdvd : 1000 ∣ n
  · obtain ⟨ k, rfl ⟩ := hdvd
    have hq : ((1000 * k : ℕ) : ℚ) / 1000 = (k : ℚ) := by
      push_cast
      exact mul_div_cancel_left₀ _ (by norm_num)
    rw [hq, format_int_any k]
    exact gf_roundtrip_int k
  · have hf1 : 0 < n % 1000 := Nat.pos_of_ne_zero (fun h => hdvd (Nat.dvd_of_mod_eq_zero h))
    have hf2 : n % 1000 < 1000 := Nat.mod_lt _ (by norm_num)
    obtain ⟨ t, k, hrs, htne, htd, hlen, hval, _ ⟩ := rstrip0_pad3 (n % 1000) hf1 hf2
    have hG := groupDigits_chars (n / 1000)
    have hstr : format_qty_pl ((n : ℚ) / 1000) =
        ⟨ replaceCh ',' '\u202F' (groupDigits (n / 1000)) ++ ',' :: t ⟩ := by
      rw [format_frac n hdvd]
      congr 1
      rw [rstrip0_long _ _ t hrs htne, rstripDot_digits_end _ t htne htd,
        polishSubst_append, polish_digits_commas _ hG, polish_dot_digits t htd]
    rw [hstr]
    have hrm : removeCh '\u202F'
        (String.data ⟨ replaceCh ',' '\u202F' (groupDigits (n / 1000)) ++ ',' :: t ⟩) =
        natDigs (n / 1000) ++ ',' :: t := by
      show removeCh '\u202F' (replaceCh ',' '\u202F' (groupDigits (n / 1000)) ++ ',' :: t) = _
      rw [removeCh_append, remove_nbsp_polished,
        removeCh_id '\u202F' (',' :: t) (by
          intro c hc
          rcases List.mem_cons.mp hc with rfl | hc
          · decide
          · exact digit_bne c '\u202F' (htd c hc) (by decide))]
    have hrep : replaceCh ',' '.' (natDigs (n / 1000) ++ ',' :: t) =
        natDigs (n / 1000) ++ '.' :: t := by
      rw [replaceCh_append,
        replaceCh_id ',' '.' _ (fun c hc => digit_bne c ',' (natDigs_digits _ c hc) (by decide))]
      congr 1
      show (if (',' == ',') then '.' else ',') :: replaceCh ',' '.' t = '.' :: t
      rw [show ((',' == ',')) = true from rfl]
      simp only [if_true]
      rw [replaceCh_id ',' '.' t (fun c hc => digit_bne c ',' (htd c hc) (by decide))]
    have hsw : stripWSL (natDigs (n / 1000) ++ '.' :: t) = natDigs (n / 1000) ++ '.' :: t := by
      unfold stripWSL
      apply stripWith_of_none
      intro c hc
      rcases List.mem_append.mp hc with hc | hc
      · exact isDigitB_not_space c (natDigs_digits _ c hc)
      · rcases List.mem_cons.mp hc with rfl | hc
        · decide
        · exact isDigitB_not_space c (htd c hc)
    have hx : parseFloatL (stripWSL (replaceCh ',' '.' (removeCh '\u202F'
        (String.data ⟨ replaceCh ',' '\u202F' (groupDigits (n / 1000)) ++ ',' :: t ⟩)))) =
        some (((n / 1000 : ℕ) : ℚ) + ((n % 1000 : ℕ) : ℚ) / 1000) := by
      rw [hrm, hrep, hsw]
      exact parse_dot_val (n / 1000) (n % 1000) k t htne htd hlen hval
    rw [gf_parse_qty_of_some _ _ hx (by
      rw [hrm, hrep, hsw]
      intro hnil
      exact natDigs_ne_nil (n / 1000) (List.append_eq_nil.mp hnil).1)]
    have hnm : ((1000 * (n / 1000) + n % 1000 : ℕ) : ℚ) = (n : ℚ) := by
      exact_mod_cast congrArg (fun m : ℕ => (m : ℚ)) (Nat.div_add_mod n 1000)
    push_cast at hnm
    field_simp
    linarith

/-- C9 counterexample: the display "0,457" of the quantity `0.457` is
reparsed by `generate_final` as `0.457` but by the shared permissive
parser `to_float` as `457` (the two reparse rules disagree on a display
string); and for the quantity `1/2048` the display is "0", whose reparse
`0` misses the original by far more than `1e-9`. -/
theorem claim_C9_counterexample :
    format_qty_pl ((457 : ℚ) / 1000) = "0,457" ∧
    gf_parse_qty "0,457" = (457 : ℚ) / 1000 ∧
    to_float "0,457" = 457 ∧
    gf_parse_qty "0,457" ≠ to_float "0,457" ∧
    format_qty_pl ((1 : ℚ) / 2048) = "0" ∧
    ¬(|gf_parse_qty (format_qty_pl ((1 : ℚ) / 2048)) - (1 : ℚ) / 2048| ≤ 1 / 1000000000) := by
  have h457 : format_qty_pl ((457 : ℚ) / 1000) = "0,457" := by
    rw [show ((457 : ℚ) / 1000) = (((457 : ℕ) : ℚ)) / 1000 by norm_num,
      format_frac 457 (by decide)]
    decide
  have hgf : gf_parse_qty "0,457" = (457 : ℚ) / 1000 := by
    rw [show gf_parse_qty "0,457" = repVal ⟨false, 0, 457, 3, 0⟩ from rfl, repVal_frac]
    norm_num
  have hto : to_float "0,457" = 457 := by
    rw [show to_float "0,457" = repVal ⟨false, 457, 0, 0, 0⟩ from rfl, repVal_whole]
    norm_num
  have hfl : ⌊(1 : ℚ) / 2048⌋ = 0 := by
    rw [Int.floor_eq_zero_iff, Set.mem_Ico]
    norm_num
  have hpr : pyRound ((1 : ℚ) / 2048) = 0 := by
    unfold pyRound
    rw [hfl, if_pos (by norm_num)]
  have hfl2 : ⌊(1000 : ℚ) * ((1 : ℚ) / 2048)⌋ = 0 := by
    rw [Int.floor_eq_zero_iff, Set.mem_Ico]
    norm_num
  have hpr2 : pyRound ((1000 : ℚ) * ((1 : ℚ) / 2048)) = 0 := by
    unfold pyRound
    rw [hfl2, if_pos (by norm_num)]
  have habs : |(1 : ℚ) / 2048 - ((0 : ℤ) : ℚ)| = 1 / 2048 := by
    rw [Int.cast_zero, sub_zero]
    exact abs_of_nonneg (by norm_num)
  have h2048 : format_qty_pl ((1 : ℚ) / 2048) = "0" := by
    unfold format_qty_pl
    rw [hpr]
    rw [if_neg (by rw [habs]; norm_num)]
    unfold formatFixed3
    rw [hpr2, if_neg (by norm_num)]
    decide
  have hgf0 : gf_parse_qty "0" = 0 := by
    rw [show gf_parse_qty "0" = repVal ⟨false, 0, 0, 0, 0⟩ from rfl, repVal_whole]
    norm_num
  refine ⟨h457, hgf, hto, ?_, h2048, ?_⟩
  · rw [hgf, hto]
    norm_num
  · rw [h2048, hgf0]
    rw [zero_sub, abs_neg, abs_of_nonneg (by norm_num : (0 : ℚ) ≤ 1 / 2048)]
    norm_num

/-! ### Dictionary lemmas for the unit lookup table -/

theorem dGet_dInsert_self (m : SMap) (k v : String) : dGet (dInsert m k v) k = some v := by
  unfold dInsert
  by_cases h : ((List.find? (fun p => p.1 == k) m).isSome) = true
  · rw [if_pos h]
    unfold dGet
    rw [List.find?_map]
    have hpf : ((fun p : String × String => p.1 == k) ∘
        (fun p : String × String => if p.1 == k then (k, v) else p)) =
        fun p : String × String => p.1 == k := by
      funext p
      show ((if p.1 == k then (k, v) else p).1 == k) = (p.1 == k)
      by_cases hp : (p.1 == k) = true
      · rw [if_pos hp, hp]
        exact beq_self_eq_true k
      · rw [if_neg hp]
    rw [hpf]
    obtain ⟨e, hfind⟩ := Option.isSome_iff_exists.mp h
    rw [hfind]
    have hpe := List.find?_some hfind
    show some (Prod.snd (if e.1 == k then (k, v) else e)) = some v
    rw [if_pos hpe]
  · rw [if_neg h]
    unfold dGet
    rw [List.find?_append]
    have hnone : List.find? (fun p => p.1 == k) m = none := by
      rcases hx : List.find? (fun p => p.1 == k) m with _ | e
      · exact hx
      · rw [hx] at h
        simp at h
    rw [hnone, List.find?_cons_of_pos]
    · rfl
    · exact beq_self_eq_true k

theorem dGet_dInsert_ne (m : SMap) (key v k : String) (hne : k ≠ key) :
    dGet (dInsert m key v) k = dGet m k := by
  have hkk : (key == k) = false := beq_eq_false_iff_ne.mpr (Ne.symm hne)
  unfold dInsert
  by_cases h : ((List.find? (fun p => p.1 == key) m).isSome) = true
  · rw [if_pos h]
    unfold dGet
    rw [List.find?_map]
    have hpf : ((fun p : String × String => p.1 == k) ∘
        (fun p : String × String => if p.1 == key then (key, v) else p)) =
        fun p : String × String => p.1 == k := by
      funext p
      show ((if p.1 == key then (key, v) else p).1 == k) = (p.1 == k)
      by_cases hp : (p.1 == key) = true
      · rw [if_pos hp, eq_of_beq hp]
      · rw [if_neg hp]
    rw [hpf]
    rcases hx : List.find? (fun p => p.1 == k) m with _ | e
    · rw [hx]
      rfl
    · rw [hx]
      have hpe := List.find?_some hx
      have he : (e.1 == key) = false := by
        rw [eq_of_beq hpe]
        exact beq_eq_false_iff_ne.mpr hne
      show some (Prod.snd (if e.1 == key then (key, v) else e)) = some e.2
      rw [he]
      rfl
  · rw [if_neg h]
    unfold dGet
    rw [List.find?_append]
    have hp : ¬(((key, v).1 == k) = true) := by
      rw [show (((key, v).1 == k)) = (key == k) from rfl, hkk]
      exact Bool.false_ne_true
    rcases hx : List.find? (fun p => p.1 == k) m with _ | e
    · rw [hx, List.find?_cons_of_neg]
      · rfl
      · exact hp
    · rw [hx]
      rfl

theorem dGet_dSetdefault_ne (m : SMap) (key v k : String) (hne : k ≠ key) :
    dGet (dSetdefault m key v) k = dGet m k := by
  have hkk : (key == k) = false := beq_eq_false_iff_ne.mpr (Ne.symm hne)
  unfold dSetdefault
  by_cases h : ((List.find? (fun p => p.1 == key) m).isSome) = true
  · rw [if_pos h]
  · rw [if_neg h]
    unfold dGet
    rw [List.find?_append]
    have hp : ¬(((key, v).1 == k) = true) := by
      rw [show (((key, v).1 == k)) = (key == k) from rfl, hkk]
      exact Bool.false_ne_true
    rcases hx : List.find? (fun p => p.1 == k) m with _ | e
    · rw [hx, List.find?_cons_of_neg]
      · rfl
      · exact hp
    · rw [hx]
      rfl

theorem dSetdefault_of_some (m : SMap) (k v w : String) (h : dGet m k = some w) :
    dSetdefault m k v = m := by
  have hs : ((List.find? (fun p => p.1 == k) m).isSome) = true := by
    unfold dGet at h
    rcases hx : List.find? (fun p => p.1 == k) m with _ | e
    · rw [hx] at h
      simp at h
    · rw [hx]
      rfl
  unfold dSetdefault
  rw [if_pos hs]

theorem dGet_dSetdefault_of_none (m : SMap) (k v : String) (h : dGet m k = none) :
    dGet (dSetdefault m k v) k = some v := by
  have hfind : List.find? (fun p => p.1 == k) m = none := by
    unfold dGet at h
    rcases hx : List.find? (fun p => p.1 == k) m with _ | e
    · exact hx
    · rw [hx] at h
      simp at h
  unfold dSetdefault
  rw [if_neg (by rw [hfind]; simp)]
  unfold dGet
  rw [List.find?_append, hfind, List.find?_cons_of_pos]
  · rfl
  · exact beq_self_eq_true k

theorem dGet_dSetdefault_some_pres (m : SMap) (key v k w : String) (h : dGet m k = some w) :
    dGet (dSetdefault m key v) k = some w := by
  by_cases hk : k = key
  · subst hk
    rw [dSetdefault_of_some m k v w h]
    exact h
  · rw [dGet_dSetdefault_ne m key v k hk]
    exact h

theorem dGet_dSetdefault_none_pres (m : SMap) (key v k : String) (hk : k ≠ key)
    (h : dGet m k = none) : dGet (dSetdefault m key v) k = none := by
  rw [dGet_dSetdefault_ne m key v k hk]
  exact h

theorem ne_of_data_length (a b : String) (h : a.data.length ≠ b.data.length) : a ≠ b :=
  fun he => h (congrArg (fun s : String => s.data.length) he)

theorem headZ_ne (c : String) (hd : c.data.all isDigitB = true) (hne : c.data ≠ [])
    (t : List Char) : (⟨'Z' :: t⟩ : String) ≠ c := by
  intro h
  rcases hcd : c.data with _ | ⟨c₀, r⟩
  · exact hne hcd
  · rw [hcd] at hd
    simp only [List.all_cons, Bool.and_eq_true] at hd
    have hdata : 'Z' :: t = c₀ :: r := by
      have hh := congrArg String.data h
      rw [hcd] at hh
      exact hh
    have hz : ('Z' : Char) = c₀ := (List.cons_eq_cons.mp hdata).1
    have hzd : isDigitB 'Z' = true := by
      rw [hz]
      exact hd.1
    exact absurd hzd (by decide)

theorem matchesZ5_decomp (s : String) (h : matchesZ5 s = true) :
    ∃ t, s.data = 'Z' :: t ∧ t.all isDigitB = true ∧ t.length = 5 := by
  unfold matchesZ5 at h
  rcases hsd : s.data with _ | ⟨c, t⟩
  · rw [hsd] at h
    exact absurd h (by decide)
  · rw [hsd] at h
    replace h : (c == 'Z' && (t.all isDigitB && t.length == 5)) = true := h
    simp only [Bool.and_eq_true, beq_iff_eq] at h
    refine ⟨t, ?_, h.2.1, h.2.2⟩
    rw [h.1]

theorem strStarts0_decomp (s : String) (h : strStarts s "0" = true) :
    ∃ t, s.data = '0' :: t := by
  unfold strStarts at h
  rcases hsd : s.data with _ | ⟨c, t⟩
  · rw [hsd] at h
    exact absurd h (by decide)
  · rw [hsd] at h
    replace h : (('0' == c) && leadsWith [] t) = true := h
    simp only [Bool.and_eq_true, beq_iff_eq] at h
    refine ⟨t, ?_⟩
    rw [← h.1]

set_option maxHeartbeats 2000000 in
theorem uomStep_self (m : SMap) (row : String × String) (hc : normCode row.1 ≠ "") :
    dGet (uomStep m row) (normCode row.1) = some (normalize_uom row.2) := by
  simp only [uomStep]
  rw [if_neg hc]
  split_ifs <;>
    (repeat
      first
        | exact dGet_dInsert_self m _ _
        | apply dGet_dSetdefault_some_pres)

set_option maxHeartbeats 2000000 in
theorem uomStep_pres_some (m : SMap) (row : String × String) (k w : String)
    (hw : dGet m k = some w) (hne : normCode row.1 ≠ k) :
    dGet (uomStep m row) k = some w := by
  simp only [uomStep]
  split_ifs <;>
    (repeat
      first
        | exact hw
        | apply dGet_dSetdefault_some_pres
        | (rw [dGet_dInsert_ne m _ _ k (Ne.symm hne)]; exact hw))

theorem dGet_ite_none (c : Prop) [Decidable c] (a b : SMap) (k : String)
    (ha : c → dGet a k = none) (hb : ¬c → dGet b k = none) :
    dGet (if c then a else b) k = none := by
  split_ifs with h
  · exact ha h
  · exact hb h

/-- A `load_uom_lookup` row leaves key `k` unregistered when `k` is
neither the row's code nor any of the padded variants the row derives. -/
theorem uomStep_none_of (m : SMap) (row : String × String) (k : String)
    (hne1 : normCode row.1 ≠ k)
    (h4k : (normCode row.1).data.all isDigitB = true → (normCode row.1).data.length = 4 →
      k ≠ "Z0" ++ normCode row.1)
    (h5k : (normCode row.1).data.all isDigitB = true → (normCode row.1).data.length = 5 →
      k ≠ "Z" ++ normCode row.1)
    (hrawk : matchesZ5 (normCode row.1) = true → k ≠ (⟨(normCode row.1).data.drop 1⟩ : String))
    (hdk : matchesZ5 (normCode row.1) = true →
      strStarts ⟨(normCode row.1).data.drop 1⟩ "0" = true →
      k ≠ (⟨((normCode row.1).data.drop 1).drop 1⟩ : String))
    (hnone : dGet m k = none) :
    dGet (uomStep m row) k = none := by
  simp only [uomStep]
  set C := normCode row.1 with hC
  set U := normalize_uom row.2 with hU
  refine dGet_ite_none _ _ _ _ (fun _ => hnone) (fun hcne => ?_)
  have h1 : dGet (dInsert m C U) k = none := by
    rw [dGet_dInsert_ne m C U k (Ne.symm hne1)]
    exact hnone
  have h2 : dGet (if C.data.all isDigitB && C.data.length == 4 then
      dSetdefault (dInsert m C U) ("Z0" ++ C) U else dInsert m C U) k = none := by
    split_ifs with hcond
    · refine dGet_dSetdefault_none_pres _ _ _ _ ?_ h1
      simp only [Bool.and_eq_true, beq_iff_eq] at hcond
      exact h4k hcond.1 hcond.2
    · exact h1
  have h3 : dGet (if C.data.all isDigitB && C.data.length == 5 then
      dSetdefault (if C.data.all isDigitB && C.data.length == 4 then
        dSetdefault (dInsert m C U) ("Z0" ++ C) U else dInsert m C U) ("Z" ++ C) U
      else (if C.data.all isDigitB && C.data.length == 4 then
        dSetdefault (dInsert m C U) ("Z0" ++ C) U else dInsert m C U)) k = none := by
    by_cases hcond : (C.data.all isDigitB && C.data.length == 5) = true
    · rw [if_pos hcond]
      refine dGet_dSetdefault_none_pres _ _ _ _ ?_ h2
      simp only [Bool.and_eq_true, beq_iff_eq] at hcond
      exact h5k hcond.1 hcond.2
    · rw [if_neg hcond]
      exact h2
  have h4 : matchesZ5 C = true → dGet (if strStarts ⟨C.data.drop 1⟩ "0" &&
      (⟨C.data.drop 1⟩ : String).data.length == 5 then
        dSetdefault (if C.data.all isDigitB && C.data.length == 5 then
          dSetdefault (if C.data.all isDigitB && C.data.length == 4 then
            dSetdefault (dInsert m C U) ("Z0" ++ C) U else dInsert m C U) ("Z" ++ C) U
          else (if C.data.all isDigitB && C.data.length == 4 then
            dSetdefault (dInsert m C U) ("Z0" ++ C) U else dInsert m C U)) ⟨C.data.drop 1⟩ U
      else (if C.data.all isDigitB && C.data.length == 5 then
          dSetdefault (if C.data.all isDigitB && C.data.length == 4 then
            dSetdefault (dInsert m C U) ("Z0" ++ C) U else dInsert m C U) ("Z" ++ C) U
          else (if C.data.all isDigitB && C.data.length == 4 then
            dSetdefault (dInsert m C U) ("Z0" ++ C) U else dInsert m C U))) k = none := by
    intro hz
    by_cases hcond : (strStarts ⟨C.data.drop 1⟩ "0" &&
        (⟨C.data.drop 1⟩ : String).data.length == 5) = true
    · rw [if_pos hcond]
      refine dGet_dSetdefault_none_pres _ _ _ _ ?_ h3
      exact hrawk hz
    · rw [if_neg hcond]
      exact h3
  refine dGet_ite_none _ _ _ _ (fun hz => ?_) (fun _ => h3)
  refine dGet_ite_none _ _ _ _ (fun hs0 => ?_) (fun _ => h4 hz)
  refine dGet_ite_none _ _ _ _ (fun _ => ?_) (fun _ => h4 hz)
  refine dGet_dSetdefault_none_pres _ _ _ _ ?_ (h4 hz)
  exact hdk hz hs0

theorem digits_matchesZ5_false (c : String) (hd : c.data.all isDigitB = true)
    (hne : c.data ≠ []) : matchesZ5 c = false := by
  rcases hcd : c.data with _ | ⟨c₀, t⟩
  · exact absurd hcd hne
  · have hc₀ : isDigitB c₀ = true := by
      rw [hcd] at hd
      simp only [List.all_cons, Bool.and_eq_true] at hd
      exact hd.1
    unfold matchesZ5
    rw [hcd]
    show (c₀ == 'Z' && (t.all isDigitB && t.length == 5)) = false
    rw [digit_bne c₀ 'Z' hc₀ (by decide)]
    rfl

/-- A row whose code is a purely numeric 4-digit `c` registers the padded
alias `Z0c` when that key is still absent. -/
theorem uomStep_alias4 (m : SMap) (row : String × String) (c : String)
    (hc : normCode row.1 = c) (hd : c.data.all isDigitB = true) (h4 : c.data.length = 4)
    (hnone : dGet m ("Z0" ++ c) = none) :
    dGet (uomStep m row) ("Z0" ++ c) = some (normalize_uom row.2) := by
  have hcd : c.data ≠ [] := by
    intro h
    rw [h] at h4
    exact absurd h4 (by decide)
  have hcne : ¬(c = "") := by
    intro h
    rw [h] at h4
    exact absurd h4 (by decide)
  have hcond4 : (c.data.all isDigitB && c.data.length == 4) = true := by
    rw [hd, h4]
    decide
  have hcond5 : ¬((c.data.all isDigitB && c.data.length == 5) = true) := by
    rw [hd, h4]
    decide
  have hz : ¬(matchesZ5 c = true) := by
    rw [digits_matchesZ5_false c hd hcd]
    exact Bool.false_ne_true
  simp only [uomStep]
  rw [hc]
  rw [if_neg hcne, if_pos hcond4, if_neg hcond5, if_neg hz]
  apply dGet_dSetdefault_of_none
  rw [dGet_dInsert_ne m c _ ("Z0" ++ c) (headZ_ne c hd hcd ('0' :: c.data))]
  exact hnone

/-- A row whose code is `Z0` followed by the 4-digit numeric tail `d`
registers the bare tail `d` when that key is still absent. -/
theorem uomStep_tailset (m : SMap) (row : String × String) (d : String)
    (hc : normCode row.1 = "Z0" ++ d) (hd : d.data.all isDigitB = true)
    (h4 : d.data.length = 4) (hnone : dGet m d = none) :
    dGet (uomStep m row) d = some (normalize_uom row.2) := by
  have hcne : ¬("Z0" ++ d = "") := ne_of_data_length _ _ (by
    rw [show ("Z0" ++ d).data = 'Z' :: '0' :: d.data from rfl]
    simp)
  have hall : (("Z0" ++ d).data.all isDigitB) = false := by
    rw [show ("Z0" ++ d).data = 'Z' :: '0' :: d.data from rfl]
    simp only [List.all_cons]
    rw [show isDigitB 'Z' = false from by decide]
    rfl
  have hcond4 : ¬((("Z0" ++ d).data.all isDigitB && ("Z0" ++ d).data.length == 4) = true) := by
    rw [hall]
    simp
  have hcond5 : ¬((("Z0" ++ d).data.all isDigitB && ("Z0" ++ d).data.length == 5) = true) := by
    rw [hall]
    simp
  have hz : matchesZ5 ("Z0" ++ d) = true := by
    unfold matchesZ5
    rw [show ("Z0" ++ d).data = 'Z' :: '0' :: d.data from rfl]
    show ('Z' == 'Z' && (('0' :: d.data).all isDigitB && ('0' :: d.data).length == 5)) = true
    simp only [List.all_cons, List.length_cons, h4, hd]
    decide
  have hs0 : strStarts ⟨("Z0" ++ d).data.drop 1⟩ "0" = true := rfl
  have hcondm4 : (strStarts ⟨("Z0" ++ d).data.drop 1⟩ "0" &&
      (⟨("Z0" ++ d).data.drop 1⟩ : String).data.length == 5) = true := by
    rw [hs0]
    show (true && ('0' :: d.data).length == 5) = true
    simp only [List.length_cons, h4]
    decide
  have hlen4 : (((⟨("Z0" ++ d).data.drop 1⟩ : String).data.drop 1).length == 4) = true := by
    show (d.data.length == 4) = true
    rw [h4]
    decide
  simp only [uomStep]
  rw [hc]
  rw [if_neg hcne, if_neg hcond4, if_neg hcond5, if_pos hz, if_pos hcondm4, if_pos hs0,
    if_pos hlen4]
  have hnone4 : dGet (dSetdefault (dInsert m ("Z0" ++ d) (normalize_uom row.2))
      ⟨("Z0" ++ d).data.drop 1⟩ (normalize_uom row.2)) d = none := by
    refine dGet_dSetdefault_none_pres _ _ _ _ ?_ ?_
    · show d ≠ (⟨'0' :: d.data⟩ : String)
      apply ne_of_data_length
      show d.data.length ≠ ('0' :: d.data).length
      simp only [List.length_cons]
      omega
    · rw [dGet_dInsert_ne m ("Z0" ++ d) _ d (ne_of_data_length _ _ (by
        rw [show ("Z0" ++ d).data = 'Z' :: '0' :: d.data from rfl]
        simp only [List.length_cons]
        omega))]
      exact hnone
  exact dGet_dSetdefault_of_none _ d _ hnone4

theorem fold_pres_some : ∀ (l : List (String × String)) (m : SMap) (k w : String),
    dGet m k = some w → (∀ p ∈ l, normCode p.1 ≠ k) →
    dGet (l.foldl uomStep m) k = some w := by
  intro l
  induction l with
  | nil =>
    intro m k w hw _
    exact hw
  | cons r t ih =>
    intro m k w hw hl
    rw [List.foldl_cons]
    exact ih (uomStep m r) k w (uomStep_pres_some m r k w hw (hl r (List.mem_cons_self r t)))
      (fun p hp => hl p (List.mem_cons_of_mem _ hp))

theorem fold_none_of : ∀ (l : List (String × String)) (m : SMap) (k : String),
    (∀ p ∈ l, normCode p.1 ≠ k ∧
      ((normCode p.1).data.all isDigitB = true → (normCode p.1).data.length = 4 →
        k ≠ "Z0" ++ normCode p.1) ∧
      ((normCode p.1).data.all isDigitB = true → (normCode p.1).data.length = 5 →
        k ≠ "Z" ++ normCode p.1) ∧
      (matchesZ5 (normCode p.1) = true → k ≠ (⟨(normCode p.1).data.drop 1⟩ : String)) ∧
      (matchesZ5 (normCode p.1) = true → strStarts ⟨(normCode p.1).data.drop 1⟩ "0" = true →
        k ≠ (⟨((normCode p.1).data.drop 1).drop 1⟩ : String))) →
    dGet m k = none → dGet (l.foldl uomStep m) k = none := by
  intro l
  induction l with
  | nil =>
    intro m k _ hnone
    exact hnone
  | cons r t ih =>
    intro m k hl hnone
    rw [List.foldl_cons]
    have hr := hl r (List.mem_cons_self r t)
    exact ih (uomStep m r) k (fun p hp => hl p (List.mem_cons_of_mem _ hp))
      (uomStep_none_of m r k hr.1 hr.2.1 hr.2.2.1 hr.2.2.2.1 hr.2.2.2.2 hnone)

/-- The five non-touching conditions of `uomStep_none_of` for a purely
numeric 4-digit key `c`, derived from the two string inequalities a
caller can actually check. -/
theorem key4_untouched (c : String) (hd : c.data.all isDigitB = true) (h4 : c.data.length = 4)
    (C : String) (hne1 : C ≠ c) (hne2 : C ≠ "Z0" ++ c) :
    C ≠ c ∧
    (C.data.all isDigitB = true → C.data.length = 4 → c ≠ "Z0" ++ C) ∧
    (C.data.all isDigitB = true → C.data.length = 5 → c ≠ "Z" ++ C) ∧
    (matchesZ5 C = true → c ≠ (⟨C.data.drop 1⟩ : String)) ∧
    (matchesZ5 C = true → strStarts ⟨C.data.drop 1⟩ "0" = true →
      c ≠ (⟨(C.data.drop 1).drop 1⟩ : String)) := by
  have hcd : c.data ≠ [] := fun h => by
    rw [h] at h4
    exact absurd h4 (by decide)
  refine ⟨hne1, ?_, ?_, ?_, ?_⟩
  · intro _ _
    exact Ne.symm (headZ_ne c hd hcd ('0' :: C.data))
  · intro _ _
    exact Ne.symm (headZ_ne c hd hcd C.data)
  · intro hz
    obtain ⟨t, hCd, _, hlen⟩ := matchesZ5_decomp C hz
    apply ne_of_data_length
    show c.data.length ≠ (C.data.drop 1).length
    rw [h4, hCd]
    simp only [List.drop_one, List.tail_cons, hlen]
    omega
  · intro hz hs0
    obtain ⟨t, hCd, _, hlen⟩ := matchesZ5_decomp C hz
    obtain ⟨r, hr⟩ := strStarts0_decomp _ hs0
    replace hr : C.data.drop 1 = '0' :: r := hr
    intro he
    apply hne2
    apply String.ext
    show C.data = 'Z' :: '0' :: c.data
    have hdd : (C.data.drop 1).drop 1 = c.data := (congrArg String.data he).symm
    rw [hCd] at hr hdd ⊢
    simp only [List.drop_one, List.tail_cons] at hr hdd
    rw [hr] at hdd
    simp only [List.tail_cons] at hdd
    rw [hr, hdd]

/-- The five non-touching conditions of `uomStep_none_of` for the padded
key `Z0c` of a 4-digit numeric code `c`. -/
theorem key6_untouched (c : String) (h4 : c.data.length = 4)
    (C : String) (hne1 : C ≠ "Z0" ++ c) (hne2 : C ≠ c) (hne3 : C ≠ "0" ++ c) :
    C ≠ ("Z0" ++ c) ∧
    (C.data.all isDigitB = true → C.data.length = 4 → ("Z0" ++ c) ≠ "Z0" ++ C) ∧
    (C.data.all isDigitB = true → C.data.length = 5 → ("Z0" ++ c) ≠ "Z" ++ C) ∧
    (matchesZ5 C = true → ("Z0" ++ c) ≠ (⟨C.data.drop 1⟩ : String)) ∧
    (matchesZ5 C = true → strStarts ⟨C.data.drop 1⟩ "0" = true →
      ("Z0" ++ c) ≠ (⟨(C.data.drop 1).drop 1⟩ : String)) := by
  refine ⟨hne1, ?_, ?_, ?_, ?_⟩
  · intro _ _ he
    apply hne2
    have hdata : ('Z' :: '0' :: c.data) = ('Z' :: '0' :: C.data) := congrArg String.data he
    simp only [List.cons.injEq, true_and] at hdata
    exact String.ext hdata.symm
  · intro _ _ he
    apply hne3
    have hdata : ('Z' :: '0' :: c.data) = ('Z' :: C.data) := congrArg String.data he
    simp only [List.cons.injEq, true_and] at hdata
    exact String.ext (show C.data = ("0" ++ c).data from hdata.symm)
  · intro hz
    obtain ⟨t, hCd, _, hlen⟩ := matchesZ5_decomp C hz
    apply ne_of_data_length
    show ('Z' :: '0' :: c.data).length ≠ (C.data.drop 1).length
    rw [hCd]
    simp only [List.length_cons, List.drop_one, List.tail_cons, h4, hlen]
    omega
  · intro hz _
    obtain ⟨t, hCd, _, hlen⟩ := matchesZ5_decomp C hz
    apply ne_of_data_length
    show ('Z' :: '0' :: c.data).length ≠ ((C.data.drop 1).drop 1).length
    rw [hCd]
    simp only [List.length_cons, List.drop_one, List.tail_cons, List.length_tail, h4, hlen]
    omega

/-- C2 (amended): in the reference table built by `load_uom_lookup`,
(1) an explicit entry always wins: if some row carries the nonempty
normalised code `c` and no later row carries `c` again, looking up `c`
yields that row's normalised unit, regardless of what aliases other rows
derive; (2) if a row carries a purely numeric 4-digit code `c`, no other
row carries `c`, and no row carries `Z0c` or `0c` (which would claim or
alias the padded key first), then looking up `Z0c` yields that row's
unit; (3) symmetrically, if a row carries `Z0d` with `d` a 4-digit
numeric tail, no other row carries `Z0d`, and no row carries `d`, then
looking up the bare tail `d` yields that row's unit.  The original
unconditional aliasing claim is false (`claim_C2_counterexample`):
derived aliases are registered first-wins while explicit entries are
last-wins, so another numeric row (for example the 5-digit `03773`,
which also aliases `Z03773`) can capture the padded key of `3773`. -/
theorem claim_C2 :
    (∀ (l₁ l₂ : List (String × String)) (r : String × String),
      normCode r.1 ≠ "" →
      (∀ p ∈ l₂, normCode p.1 ≠ normCode r.1) →
      dGet (load_uom_lookup (l₁ ++ r :: l₂)) (normCode r.1) = some (normalize_uom r.2)) ∧
    (∀ (l₁ l₂ : List (String × String)) (r : String × String) (c : String),
      normCode r.1 = c →
      c.data.all isDigitB = true → c.data.length = 4 →
      (∀ p ∈ l₁ ++ l₂, normCode p.1 ≠ c) →
      (∀ p ∈ l₁ ++ r :: l₂, normCode p.1 ≠ "Z0" ++ c ∧ normCode p.1 ≠ "0" ++ c) →
      dGet (load_uom_lookup (l₁ ++ r :: l₂)) ("Z0" ++ c) = some (normalize_uom r.2)) ∧
    (∀ (l₁ l₂ : List (String × String)) (r : String × String) (d : String),
      normCode r.1 = "Z0" ++ d →
      d.data.all isDigitB = true → d.data.length = 4 →
      (∀ p ∈ l₁ ++ l₂, normCode p.1 ≠ "Z0" ++ d) →
      (∀ p ∈ l₁ ++ r :: l₂, normCode p.1 ≠ d) →
      dGet (load_uom_lookup (l₁ ++ r :: l₂)) d = some (normalize_uom r.2)) := by
  refine ⟨?_, ?_, ?_⟩
  · intro l₁ l₂ r hne hl₂
    unfold load_uom_lookup
    rw [List.foldl_append, List.foldl_cons]
    exact fold_pres_some l₂ _ _ _ (uomStep_self _ r hne) hl₂
  · intro l₁ l₂ r c hc hd h4 hno_c hno_pad
    unfold load_uom_lookup
    rw [List.foldl_append, List.foldl_cons]
    have hfront : dGet (l₁.foldl uomStep []) ("Z0" ++ c) = none := by
      refine fold_none_of l₁ [] ("Z0" ++ c) ?_ rfl
      intro p hp
      exact key6_untouched c h4 (normCode p.1)
        (hno_pad p (List.mem_append_left _ hp)).1
        (hno_c p (List.mem_append_left _ hp))
        (hno_pad p (List.mem_append_left _ hp)).2
    have hstep : dGet (uomStep (l₁.foldl uomStep []) r) ("Z0" ++ c) =
        some (normalize_uom r.2) := uomStep_alias4 _ r c hc hd h4 hfront
    refine fold_pres_some l₂ _ _ _ hstep ?_
    intro p hp
    exact (hno_pad p (List.mem_append_right _ (List.mem_cons_of_mem _ hp))).1
  · intro l₁ l₂ r d hc hd h4 hno_pad hno_d
    unfold load_uom_lookup
    rw [List.foldl_append, List.foldl_cons]
    have hfront : dGet (l₁.foldl uomStep []) d = none := by
      refine fold_none_of l₁ [] d ?_ rfl
      intro p hp
      exact key4_untouched d hd h4 (normCode p.1)
        (hno_d p (List.mem_append_left _ hp))
        (hno_pad p (List.mem_append_left _ hp))
    have hstep : dGet (uomStep (l₁.foldl uomStep []) r) d =
        some (normalize_uom r.2) := uomStep_tailset _ r d hc hd h4 hfront
    refine fold_pres_some l₂ _ _ _ hstep ?_
    intro p hp
    exact hno_d p (List.mem_append_right _ (List.mem_cons_of_mem _ hp))

/-- C2 counterexample: the source file `[("03773", "L"), ("3773", "KG")]`
has an explicit entry for the purely numeric 4-digit code `3773` with
unit `KG`, yet looking up `Z03773` yields `L`, not `KG`: the 5-digit
numeric row `03773` claimed the padded key first, and derived aliases
are set-if-absent. -/
theorem claim_C2_counterexample :
    normCode "3773" = "3773" ∧
    ("3773" : String).data.all isDigitB = true ∧
    ("3773" : String).data.length = 4 ∧
    normalize_uom "KG" = "KG" ∧
    dGet (load_uom_lookup [("03773", "L"), ("3773", "KG")]) "3773" = some "KG" ∧
    dGet (load_uom_lookup [("03773", "L"), ("3773", "KG")]) "Z03773" = some "L" ∧
    ¬(dGet (load_uom_lookup [("03773", "L"), ("3773", "KG")]) "Z03773" = some "KG") := by
  decide

/-- Witness: the three parts of the amended C2 at concrete tables. -/
theorem claim_C2_witness :
    dGet (load_uom_lookup [("x", "szt"), ("3773", "kg"), ("9999", "l")]) "3773" = some "KG" ∧
    dGet (load_uom_lookup [("x", "szt"), ("3773", "kg"), ("9999", "l")]) ("Z0" ++ "3773") =
      some "KG" ∧
    dGet (load_uom_lookup [("Z03773", "l"), ("x", "szt")]) "3773" = some "L" := by
  refine ⟨?_, ?_, ?_⟩
  · exact claim_C2.1 [("x", "szt")] [("9999", "l")] ("3773", "kg") (by decide) (by decide)
  · exact claim_C2.2.1 [("x", "szt")] [("9999", "l")] ("3773", "kg") "3773" (by decide)
      (by decide) (by decide) (by decide) (by decide)
  · exact claim_C2.2.2 [] [("x", "szt")] ("Z03773", "l") "3773" (by decide) (by decide)
      (by decide) (by decide) (by decide)

theorem claim_C9_witness :
    gf_parse_qty (format_qty_pl ((457 : ℚ) / 1000)) = (457 : ℚ) / 1000 :=
  claim_C9 457
